import Mathlib

/-!
# Verification of the PyClifford stabilizer-tableau engine

This file gives a shallow embedding of the stabilizer/Clifford-map engine of
the repository (`src/stabilizer.py`, with the legacy duplicate copy in
`build/lib/pyclifford/stabilizer.py`) and proves the claims of the
specification against it.

The repository's `stabilizer.py` imports its low-level kernels
(`acq_mat`, `ps0`, `z2inv`, `pauli_combine`, `pauli_transform`,
`map_to_state`, `state_to_map`, `stabilizer_project`, `stabilizer_expect`,
`stabilizer_entropy`, `mask`, `stabilizer_projection_trace`) from a `utils`
module that is not part of the sources.  Those definitions are modelled from
the specification (sections 4.1, 4.2, 4.4 of the spec); each such definition
carries a doc comment starting with `Modelled from the spec:`.  Everything at
the level of `stabilizer.py` itself is translated directly from the source.

## Data model

A Pauli string on `N` qubits is a binary vector of length `2N` (spec section
3): bit pairs `(x_i, z_i)` encode `I, X, Z, Y` on qubit `i`.  We index the
`2N` positions by `Fin N × Bool`, where `(i, false)` is the x-bit of qubit
`i` (Python index `2*i`) and `(i, true)` the z-bit (Python index `2*i+1`).
A phase tag lives in `ZMod 4` (units of `i`).
-/

/-- The two bits `(x, z)` of one qubit of an encoded Pauli string:
`(0,0) = I`, `(1,0) = X`, `(0,1) = Z`, `(1,1) = Y`. -/
abbrev PauliBit : Type := ZMod 2 × ZMod 2

/-- Modelled from the spec (section 4.2, missing `utils` kernel): the
per-qubit phase correction for multiplying two encoded single-qubit Paulis,
in units of `i` mod 4.  The spec fixes the convention by `X·Z = -iY` (and the
symmetric anticommutation bookkeeping), so `σ_p σ_q = i^(kappa p q) σ_(p+q)`
with the canonical Hermitian single-qubit operators `I, X, Z, Y`:
identity factors and equal factors contribute `0`; the cyclic products
`X·Y, Y·Z, Z·X` contribute `+1` (e.g. `X·Y = iZ`); the reversed products
`Y·X, Z·Y, X·Z` contribute `-1` (e.g. `X·Z = -iY`). -/
def kappa (p q : PauliBit) : ZMod 4 :=
  if p = (0, 0) ∨ q = (0, 0) ∨ p = q then 0
  else if (p, q) = ((1, 0), (1, 1)) ∨ (p, q) = ((1, 1), (0, 1)) ∨
          (p, q) = ((0, 1), (1, 0)) then 1
  else 3

/-- The per-qubit anticommutation bit: `1` iff the two single-qubit Paulis
anticommute (the symplectic pairing of one bit pair, spec section 4.1). -/
def acqBit (p q : PauliBit) : ZMod 2 :=
  p.1 * q.2 + p.2 * q.1

/-- Inclusion of `ZMod 2` into `ZMod 4` that doubles: `0 ↦ 0`, `1 ↦ 2`.
Used to express sign factors `(-1)^b = i^(twoZ4 b)`. -/
def twoZ4 (b : ZMod 2) : ZMod 4 := 2 * (b.val : ZMod 4)

/-- The per-qubit `x·z` indicator (`1` exactly on `Y`), as a phase in
`ZMod 4`; summed over qubits this is the kernel `ps0` ("bare phase factor
due to x.z components"). -/
def yBit (p : PauliBit) : ZMod 4 := ((p.1 * p.2 : ZMod 2).val : ZMod 4)

lemma twoZ4_add : ∀ a b : ZMod 2, twoZ4 (a + b) = twoZ4 a + twoZ4 b := by
  decide

lemma kappa_cocycle : ∀ p q s : PauliBit,
    kappa p q + kappa (p + q) s = kappa q s + kappa p (q + s) := by
  decide

lemma kappa_zero_left : ∀ q : PauliBit, kappa 0 q = 0 := by
  decide

lemma kappa_zero_right : ∀ p : PauliBit, kappa p 0 = 0 := by
  decide

lemma kappa_self : ∀ p : PauliBit, kappa p p = 0 := by decide

lemma kappa_swap : ∀ p q : PauliBit,
    kappa p q = twoZ4 (acqBit p q) + kappa q p := by decide

lemma kappa_eq_bare : ∀ p q : PauliBit,
    kappa p q + yBit (p + q) = twoZ4 (p.2 * q.1) + yBit p + yBit q := by
  decide

/-- A Pauli string on `N` qubits: the binary vector of length `2N`,
position `(i, false)` = x-bit of qubit `i`, `(i, true)` = z-bit. -/
abbrev PauliStr (N : ℕ) : Type := Fin N × Bool → ZMod 2

/-- The bit pair of qubit `i` of a Pauli string. -/
def qubitOf {N : ℕ} (g : PauliStr N) (i : Fin N) : PauliBit :=
  (g (i, false), g (i, true))

lemma qubitOf_add {N : ℕ} (g h : PauliStr N) (i : Fin N) :
    qubitOf (g + h) i = qubitOf g i + qubitOf h i := rfl

lemma qubitOf_zero {N : ℕ} (i : Fin N) : qubitOf (0 : PauliStr N) i = 0 := rfl

/-- Modelled from the spec (section 4.2): the phase power of `i` produced
when multiplying two encoded Pauli strings — "the sum of the two input
phases plus a correction term that counts, for each qubit, whether the
component operators were applied in an order that introduces a factor of
`i` or `-i`", reduced mod 4.  So `σ_g σ_h = i^(ipow g h) σ_(g+h)`. -/
def ipow {N : ℕ} (g h : PauliStr N) : ZMod 4 :=
  ∑ i : Fin N, kappa (qubitOf g i) (qubitOf h i)

/-- Modelled from the spec (section 4.1, `anticommutation_pairing`): the
symplectic inner product of two Pauli strings, `1` iff they anticommute. -/
def acq {N : ℕ} (g h : PauliStr N) : ZMod 2 :=
  ∑ i : Fin N, acqBit (qubitOf g i) (qubitOf h i)

/-- Modelled from the spec (missing `utils` kernel `ps0`, the "bare phase
factor" of a string): the number of `Y` components (`x_i z_i = 1`) mod 4;
it relates the canonical Hermitian operator `σ_g` to the ordered product of
bare `X`/`Z` generators: `σ_g = i^(ps0 g) · Π_k G_k^(g_k)`. -/
def ps0 {N : ℕ} (g : PauliStr N) : ZMod 4 :=
  ∑ i : Fin N, yBit (qubitOf g i)

lemma ipow_zero_left {N : ℕ} (h : PauliStr N) : ipow 0 h = 0 := by
  unfold ipow
  simp [qubitOf_zero, kappa_zero_left]

lemma ipow_zero_right {N : ℕ} (g : PauliStr N) : ipow g 0 = 0 := by
  unfold ipow
  simp [qubitOf_zero, kappa_zero_right]

lemma ipow_self {N : ℕ} (g : PauliStr N) : ipow g g = 0 := by
  unfold ipow
  simp [kappa_self]

lemma ipow_cocycle {N : ℕ} (g h s : PauliStr N) :
    ipow g h + ipow (g + h) s = ipow h s + ipow g (h + s) := by
  unfold ipow
  rw [← Finset.sum_add_distrib, ← Finset.sum_add_distrib]
  refine Finset.sum_congr rfl fun i _ => ?_
  rw [qubitOf_add, qubitOf_add]
  exact kappa_cocycle _ _ _

lemma twoZ4_sum {ι : Type} (s : Finset ι) (f : ι → ZMod 2) :
    twoZ4 (∑ i ∈ s, f i) = ∑ i ∈ s, twoZ4 (f i) := by
  classical
  induction s using Finset.induction_on with
  | empty => simp [twoZ4]
  | insert hnotmem ih =>
      rw [Finset.sum_insert hnotmem, Finset.sum_insert hnotmem, twoZ4_add, ih]

lemma ipow_swap {N : ℕ} (g h : PauliStr N) :
    ipow g h = twoZ4 (acq g h) + ipow h g := by
  unfold ipow acq
  rw [twoZ4_sum, ← Finset.sum_add_distrib]
  exact Finset.sum_congr rfl fun i _ => kappa_swap _ _

/-- A Pauli operator: phase tag (power of `i`) together with a string.
`⟨p, g⟩` denotes the operator `i^p σ_g` (spec section 3). -/
structure PauliElem (N : ℕ) where
  ph : ZMod 4
  str : PauliStr N
deriving DecidableEq

namespace PauliElem

/-- Multiplication of encoded Pauli operators (spec section 4.2): XOR on the
binary vectors, phases added together with the per-qubit correction. -/
instance instMulPauliElem {N : ℕ} : Mul (PauliElem N) :=
  ⟨fun P Q => ⟨P.ph + Q.ph + ipow P.str Q.str, P.str + Q.str⟩⟩

instance instOnePauliElem {N : ℕ} : One (PauliElem N) := ⟨⟨0, 0⟩⟩

lemma mul_def {N : ℕ} (P Q : PauliElem N) :
    P * Q = ⟨P.ph + Q.ph + ipow P.str Q.str, P.str + Q.str⟩ := rfl

lemma one_def {N : ℕ} : (1 : PauliElem N) = ⟨0, 0⟩ := rfl

instance instMonoidPauliElem {N : ℕ} : Monoid (PauliElem N) where
  mul_assoc P Q S := by
    have hco := ipow_cocycle P.str Q.str S.str
    rw [mul_def, mul_def, mul_def, mul_def]
    simp only [PauliElem.mk.injEq]
    constructor
    · linear_combination hco
    · exact add_assoc _ _ _
  one_mul P := by
    rw [mul_def]
    simp [one_def, ipow_zero_left]
  mul_one P := by
    rw [mul_def]
    simp [one_def, ipow_zero_right]

/-- A pure phase (central element `i^p`). -/
def phaseElem (N : ℕ) (p : ZMod 4) : PauliElem N := ⟨p, 0⟩

lemma phaseElem_mul {N : ℕ} (p : ZMod 4) (P : PauliElem N) :
    phaseElem N p * P = ⟨p + P.ph, P.str⟩ := by
  rw [mul_def]
  simp [phaseElem, ipow_zero_left]

lemma phaseElem_mul_phaseElem {N : ℕ} (p q : ZMod 4) :
    phaseElem N p * phaseElem N q = phaseElem N (p + q) := by
  rw [phaseElem_mul]
  rfl

lemma mul_phaseElem {N : ℕ} (p : ZMod 4) (P : PauliElem N) :
    P * phaseElem N p = phaseElem N p * P := by
  rw [phaseElem_mul, mul_def]
  simp [phaseElem, ipow_zero_right]
  ring

lemma phaseElem_zero {N : ℕ} : phaseElem N 0 = 1 := rfl

lemma ph_mul {N : ℕ} (P Q : PauliElem N) :
    (P * Q).ph = P.ph + Q.ph + ipow P.str Q.str := rfl

lemma str_mul {N : ℕ} (P Q : PauliElem N) : (P * Q).str = P.str + Q.str := rfl

end PauliElem

/-! ## Row order and combination of Pauli operators

The Python tableaus store the `2N` positions in interleaved order
`x0, z0, x1, z1, ...`; loops over rows run in that order.  `rowOrderOf l`
lists the positions of the qubits in `l` in this interleaved order. -/

/-- The interleaved position order for a given list of qubits. -/
def rowOrderOf {N : ℕ} (l : List (Fin N)) : List (Fin N × Bool) :=
  l.flatMap fun i => [(i, false), (i, true)]

/-- The interleaved order of all `2N` positions (Python row order `0..2N-1`). -/
def rowOrder (N : ℕ) : List (Fin N × Bool) := rowOrderOf (List.finRange N)

lemma mem_rowOrder {N : ℕ} (j : Fin N × Bool) : j ∈ rowOrder N := by
  unfold rowOrder rowOrderOf
  rw [List.mem_flatMap]
  refine ⟨j.1, List.mem_finRange _, ?_⟩
  rcases j with ⟨i, b⟩
  cases b <;> simp

lemma rowOrder_nodup {N : ℕ} : (rowOrder N).Nodup := by
  unfold rowOrder rowOrderOf
  rw [List.nodup_flatMap]
  constructor
  · intro i _
    simp
  · refine (List.nodup_finRange N).imp ?_
    intro i j hij
    simp only [Function.onFun, List.disjoint_left, List.mem_cons,
      List.mem_singleton, List.not_mem_nil]
    rintro a (rfl | rfl | h) h2
    · rcases h2 with h2 | h2 | h2 <;> first
        | exact hij (congrArg Prod.fst h2)
        | exact h2.elim
    · rcases h2 with h2 | h2 | h2 <;> first
        | exact hij (congrArg Prod.fst h2)
        | exact h2.elim
    · exact h.elim

/-- The ordered product of the operators `R k` for positions `k` in `ℓ`
selected by the coefficient vector `c` (1 = selected). -/
def selProd {N : ℕ} (R : Fin N × Bool → PauliElem N) (ℓ : List (Fin N × Bool))
    (c : PauliStr N) : PauliElem N :=
  ((ℓ.filter fun k => c k = 1).map R).prod

/-- A Clifford map (source class `CliffordMap`): the binary matrix `gs`
whose row `(i, false)` (Python row `2i`) is the image of `X_i` and row
`(i, true)` (Python row `2i+1`) the image of `Z_i`, plus the phase
vector `ps`. -/
structure CliffordMap (N : ℕ) where
  gs : Matrix (Fin N × Bool) (Fin N × Bool) (ZMod 2)
  ps : Fin N × Bool → ZMod 4
deriving DecidableEq

/-- Row `j` of a Clifford map as a Pauli operator. -/
def CliffordMap.row {N : ℕ} (M : CliffordMap N) (j : Fin N × Bool) : PauliElem N :=
  ⟨M.ps j, M.gs j⟩

/-- Modelled from the spec (section 4.2, missing kernel `pauli_combine`,
single output row): "given a binary coefficient matrix describing which
subset/product of a generator list to take for each output row, returns the
combined encoded operators and phases".  The product is accumulated over the
generator rows in their storage order (the source loops over `j_in` in
ascending row order). -/
def combineRow {N : ℕ} (c : PauliStr N) (M : CliffordMap N) : PauliElem N :=
  selProd M.row (rowOrder N) c

/-- Modelled from the spec (section 4.2, missing kernel `pauli_combine`):
all output rows of the combination described by coefficient matrix `C`. -/
def pauli_combine {N : ℕ} {ι : Type} (C : ι → PauliStr N) (M : CliffordMap N) :
    (ι → PauliStr N) × (ι → ZMod 4) :=
  (fun j => (combineRow (C j) M).str, fun j => (combineRow (C j) M).ph)

/-- Modelled from the spec (section 4.2, missing kernel `pauli_transform`,
acting on one operator): "re-expresses each input Pauli string in the
operator basis produced by a Clifford map".  The operator `i^p σ_g` equals
`i^(p + ps0 g) · Π_k G_k^(g_k)` over the bare generators
`G = (X_0, Z_0, X_1, Z_1, ...)`, and each `G_k` maps to row `k` of the map,
so the image is `i^(p + ps0 g)` times the combination of the map rows
selected by `g` — "matrix multiplication of the input binary vectors against
the map's binary matrix, with phase corrections accumulated per
anticommutation crossing".  This phase convention is pinned down by the
source of `CliffordMap.inverse`, whose phases are chosen exactly so that the
round-trip composition has all-zero phases (spec section 4.3). -/
def transformElem {N : ℕ} (P : PauliElem N) (M : CliffordMap N) : PauliElem N :=
  ⟨P.ph + ps0 P.str + (combineRow P.str M).ph, (combineRow P.str M).str⟩

/-- Modelled from the spec (section 4.2, missing kernel `pauli_transform`):
transform a list of rows (with phases) by a Clifford map. -/
def pauli_transform {N : ℕ} {ι : Type} (gsIn : ι → PauliStr N) (psIn : ι → ZMod 4)
    (gsMap : Matrix (Fin N × Bool) (Fin N × Bool) (ZMod 2))
    (psMap : Fin N × Bool → ZMod 4) : (ι → PauliStr N) × (ι → ZMod 4) :=
  (fun j => (transformElem ⟨psIn j, gsIn j⟩ ⟨gsMap, psMap⟩).str,
   fun j => (transformElem ⟨psIn j, gsIn j⟩ ⟨gsMap, psMap⟩).ph)

/-- Modelled from the spec (section 4.1, missing kernel `z2inv`): the
inverse of a square binary matrix over GF(2).  Since the only unit of
`ZMod 2` is `1`, an invertible matrix has determinant `1` and its inverse is
its adjugate (`adjugate_mul : adjugate A * A = det A • 1`).  On singular
input the spec leaves the result undefined ("fails"); callers only invoke it
on matrices guaranteed invertible by construction. -/
def z2inv {N : ℕ} (M : Matrix (Fin N × Bool) (Fin N × Bool) (ZMod 2)) :
    Matrix (Fin N × Bool) (Fin N × Bool) (ZMod 2) :=
  M.adjugate

/-- Source `CliffordMap.compose` (src/stabilizer.py lines 54-59): "Returns
the composition of this map with the other map (this map will transform
first in the forward transformation)", computed as
`pauli_transform(self.gs, self.ps, other.gs, other.ps)`. -/
def CliffordMap.compose {N : ℕ} (A B : CliffordMap N) : CliffordMap N :=
  ⟨(pauli_transform A.gs A.ps B.gs B.ps).1, (pauli_transform A.gs A.ps B.gs B.ps).2⟩

/-- Source `CliffordMap.inverse` (src/stabilizer.py lines 61-67):
`gs_inv = z2inv(self.gs)`; `gs_iden, ps_mis = pauli_combine(gs_inv, self.gs,
self.ps)`; `ps_inv = (- ps_mis - ps0(gs_inv)) % 4`. -/
def CliffordMap.inverse {N : ℕ} (M : CliffordMap N) : CliffordMap N :=
  ⟨z2inv M.gs, fun j => -(combineRow (z2inv M.gs j) M).ph - ps0 (z2inv M.gs j)⟩

/-- Source `identity_map` (src/stabilizer.py lines 167-170): identity binary
matrix, all phases zero. -/
def identity_map (N : ℕ) : CliffordMap N := ⟨1, 0⟩

/-- The symplectic form on basis vectors: position `j` and `k` anticommute
exactly when they are the X and Z bit of the same qubit. -/
def acqD {N : ℕ} (j k : Fin N × Bool) : ZMod 2 :=
  if j.1 = k.1 ∧ j.2 ≠ k.2 then 1 else 0

/-- A valid Clifford map (spec section 3): its binary matrix is invertible
over GF(2) (equivalently, over `ZMod 2`, has determinant 1) and preserves
the symplectic anticommutation form, and its phases are `0` or `2`
(each row is a Hermitian Pauli operator, the image of a Hermitian
generator; the phase indicators of maps take values in `{0, 2}`). -/
def IsCliffordMap {N : ℕ} (M : CliffordMap N) : Prop :=
  M.gs.det = 1 ∧ (∀ j k, acq (M.gs j) (M.gs k) = acqD j k) ∧ (∀ j, 2 * M.ps j = 0)

instance instDecidableIsCliffordMap {N : ℕ} (M : CliffordMap N) :
    Decidable (IsCliffordMap M) :=
  inferInstanceAs (Decidable (M.gs.det = 1 ∧
    (∀ j k, acq (M.gs j) (M.gs k) = acqD j k) ∧ (∀ j, 2 * M.ps j = 0)))

/-! ## Combination: string part and normal ordering -/

lemma zmod2_cases : ∀ a : ZMod 2, a = 0 ∨ a = 1 := by decide

lemma zmod2_add_self : ∀ a : ZMod 2, a + a = 0 := by decide

lemma str_add_self {N : ℕ} (g : PauliStr N) : g + g = 0 :=
  funext fun k => zmod2_add_self (g k)

lemma str_listProd {N : ℕ} (l : List (PauliElem N)) :
    l.prod.str = (l.map PauliElem.str).sum := by
  induction l with
  | nil => rfl
  | cons a t ih => rw [List.prod_cons, PauliElem.str_mul, ih, List.map_cons, List.sum_cons]

lemma selProd_cons {N : ℕ} (R : Fin N × Bool → PauliElem N) (a : Fin N × Bool)
    (t : List (Fin N × Bool)) (c : PauliStr N) :
    selProd R (a :: t) c = if c a = 1 then R a * selProd R t c else selProd R t c := by
  unfold selProd
  rw [List.filter_cons]
  by_cases hca : c a = 1
  · simp [hca]
  · simp [hca]

lemma selProd_nil {N : ℕ} (R : Fin N × Bool → PauliElem N) (c : PauliStr N) :
    selProd R [] c = 1 := rfl

lemma rowOrder_toFinset {N : ℕ} : (rowOrder N).toFinset = Finset.univ :=
  Finset.eq_univ_iff_forall.2 fun j => List.mem_toFinset.2 (mem_rowOrder j)

lemma selProd_str {N : ℕ} (R : Fin N × Bool → PauliElem N) (ℓ : List (Fin N × Bool))
    (c : PauliStr N) :
    (selProd R ℓ c).str = ((ℓ.filter fun k => c k = 1).map fun k => (R k).str).sum := by
  unfold selProd
  rw [str_listProd, List.map_map]
  rfl

lemma list_sum_apply {N : ℕ} {α : Type} (l : List α) (f : α → PauliStr N)
    (x : Fin N × Bool) : (l.map f).sum x = (l.map fun k => f k x).sum := by
  induction l with
  | nil => rfl
  | cons a t ih =>
      rw [List.map_cons, List.map_cons, List.sum_cons, List.sum_cons, Pi.add_apply, ih]

/-- The string part of a combination is the GF(2) matrix-vector product of
the coefficient vector with the map's binary matrix. -/
lemma combineRow_str {N : ℕ} (c : PauliStr N) (M : CliffordMap N) :
    (combineRow c M).str = Matrix.vecMul c M.gs := by
  unfold combineRow
  rw [selProd_str]
  funext x
  rw [list_sum_apply]
  have hnd : ((rowOrder N).filter fun k => c k = 1).Nodup := rowOrder_nodup.filter _
  rw [← List.sum_toFinset _ hnd, List.toFinset_filter, rowOrder_toFinset]
  rw [Finset.sum_filter]
  rw [Matrix.vecMul, Matrix.dotProduct]
  refine Finset.sum_congr rfl fun k _ => ?_
  rcases zmod2_cases (c k) with h0 | h1
  · simp [h0, CliffordMap.row]
  · simp [h1, CliffordMap.row]

/-! ## Normal ordering of selection products -/

/-- The total anticommutation parity picked up when one operator at position
`a` is moved left past the operators of `t` selected by `g`. -/
def sumAcq {N : ℕ} (t : List (Fin N × Bool)) (g : PauliStr N) (a : Fin N × Bool) :
    ZMod 2 :=
  ((t.filter fun k => g k = 1).map fun j => acqD j a).sum

/-- The phase produced when merging the `g`-selected and `h`-selected
products over the position list `ℓ` into the `(g+h)`-selected product. -/
def gammaPh {N : ℕ} : List (Fin N × Bool) → PauliStr N → PauliStr N → ZMod 4
  | [], _, _ => 0
  | a :: t, g, h => (if h a = 1 then twoZ4 (sumAcq t g a) else 0) + gammaPh t g h

lemma twoZ4_zero : twoZ4 0 = 0 := by decide

lemma sumAcq_nil {N : ℕ} (g : PauliStr N) (a : Fin N × Bool) : sumAcq [] g a = 0 := rfl

lemma sumAcq_cons {N : ℕ} (b : Fin N × Bool) (t : List (Fin N × Bool))
    (g : PauliStr N) (a : Fin N × Bool) :
    sumAcq (b :: t) g a = (if g b = 1 then acqD b a else 0) + sumAcq t g a := by
  unfold sumAcq
  rw [List.filter_cons]
  by_cases hgb : g b = 1
  · simp [hgb]
  · simp [hgb]

lemma gammaPh_cons {N : ℕ} (a : Fin N × Bool) (t : List (Fin N × Bool))
    (g h : PauliStr N) :
    gammaPh (a :: t) g h = (if h a = 1 then twoZ4 (sumAcq t g a) else 0) + gammaPh t g h :=
  rfl

lemma mul_phaseElem_left {N : ℕ} (x : PauliElem N) (p : ZMod 4) (y : PauliElem N) :
    x * (PauliElem.phaseElem N p * y) = PauliElem.phaseElem N p * (x * y) := by
  rw [← mul_assoc, PauliElem.mul_phaseElem, mul_assoc]

/-- Moving a single operator from the right to the left of a selection
product costs the accumulated anticommutation sign. -/
lemma selProd_mul_single {N : ℕ} (R : Fin N × Bool → PauliElem N)
    (hsw : ∀ j k, R j * R k = PauliElem.phaseElem N (twoZ4 (acqD j k)) * (R k * R j))
    (t : List (Fin N × Bool)) (g : PauliStr N) (a : Fin N × Bool) :
    selProd R t g * R a =
      PauliElem.phaseElem N (twoZ4 (sumAcq t g a)) * (R a * selProd R t g) := by
  induction t with
  | nil =>
      rw [selProd_nil, one_mul, mul_one, sumAcq_nil, twoZ4_zero, PauliElem.phaseElem_zero,
        one_mul]
  | cons b t ih =>
      rw [selProd_cons, sumAcq_cons]
      by_cases hgb : g b = 1
      · rw [if_pos hgb, if_pos hgb]
        calc (R b * selProd R t g) * R a
            = R b * (selProd R t g * R a) := mul_assoc _ _ _
          _ = R b * (PauliElem.phaseElem N (twoZ4 (sumAcq t g a)) *
                (R a * selProd R t g)) := by rw [ih]
          _ = PauliElem.phaseElem N (twoZ4 (sumAcq t g a)) *
                (R b * (R a * selProd R t g)) := mul_phaseElem_left _ _ _
          _ = PauliElem.phaseElem N (twoZ4 (sumAcq t g a)) *
                ((R b * R a) * selProd R t g) := by rw [mul_assoc]
          _ = PauliElem.phaseElem N (twoZ4 (sumAcq t g a)) *
                ((PauliElem.phaseElem N (twoZ4 (acqD b a)) * (R a * R b)) *
                  selProd R t g) := by rw [hsw b a]
          _ = PauliElem.phaseElem N (twoZ4 (sumAcq t g a)) *
                (PauliElem.phaseElem N (twoZ4 (acqD b a)) *
                  ((R a * R b) * selProd R t g)) := by rw [mul_assoc]
          _ = (PauliElem.phaseElem N (twoZ4 (sumAcq t g a)) *
                PauliElem.phaseElem N (twoZ4 (acqD b a))) *
                  ((R a * R b) * selProd R t g) := (mul_assoc _ _ _).symm
          _ = PauliElem.phaseElem N (twoZ4 (acqD b a + sumAcq t g a)) *
                ((R a * R b) * selProd R t g) := by
                  rw [PauliElem.phaseElem_mul_phaseElem, twoZ4_add, add_comm]
          _ = PauliElem.phaseElem N (twoZ4 (acqD b a + sumAcq t g a)) *
                (R a * (R b * selProd R t g)) := by rw [mul_assoc]
      · rw [if_neg hgb, if_neg hgb, zero_add, ih]

/-- Normal ordering: the product of the `g`-selected and the `h`-selected
products equals the merge phase times the `(g+h)`-selected product, for any
family of rows that square to one and commute or anticommute according to
the symplectic form on positions. -/
lemma selProd_mul {N : ℕ} (R : Fin N × Bool → PauliElem N)
    (hsq : ∀ j, R j * R j = 1)
    (hsw : ∀ j k, R j * R k = PauliElem.phaseElem N (twoZ4 (acqD j k)) * (R k * R j))
    (ℓ : List (Fin N × Bool)) (g h : PauliStr N) :
    selProd R ℓ g * selProd R ℓ h =
      PauliElem.phaseElem N (gammaPh ℓ g h) * selProd R ℓ (g + h) := by
  induction ℓ generalizing g h with
  | nil =>
      rw [selProd_nil, selProd_nil, selProd_nil, one_mul, mul_one]
      exact (PauliElem.phaseElem_zero).symm
  | cons a t ih =>
      rw [selProd_cons R a t g, selProd_cons R a t h, selProd_cons R a t (g + h),
        gammaPh_cons]
      have hgh : (g + h) a = g a + h a := rfl
      by_cases hha : h a = 1
      · rw [if_pos hha, if_pos hha]
        by_cases hga : g a = 1
        · have hz : (g + h) a = 0 := by rw [hgh, hga, hha]; decide
          rw [if_pos hga, if_neg (by rw [hz]; decide)]
          calc (R a * selProd R t g) * (R a * selProd R t h)
              = R a * ((selProd R t g * R a) * selProd R t h) := by
                rw [mul_assoc, ← mul_assoc (selProd R t g)]
            _ = R a * ((PauliElem.phaseElem N (twoZ4 (sumAcq t g a)) *
                  (R a * selProd R t g)) * selProd R t h) := by
                rw [selProd_mul_single R hsw]
            _ = R a * (PauliElem.phaseElem N (twoZ4 (sumAcq t g a)) *
                  ((R a * selProd R t g) * selProd R t h)) := by rw [mul_assoc]
            _ = PauliElem.phaseElem N (twoZ4 (sumAcq t g a)) *
                  (R a * ((R a * selProd R t g) * selProd R t h)) :=
                mul_phaseElem_left _ _ _
            _ = PauliElem.phaseElem N (twoZ4 (sumAcq t g a)) *
                  ((R a * R a) * (selProd R t g * selProd R t h)) := by
                rw [mul_assoc (R a) (selProd R t g) (selProd R t h),
                  ← mul_assoc (R a) (R a) (selProd R t g * selProd R t h)]
            _ = PauliElem.phaseElem N (twoZ4 (sumAcq t g a)) *
                  (selProd R t g * selProd R t h) := by rw [hsq a, one_mul]
            _ = PauliElem.phaseElem N (twoZ4 (sumAcq t g a)) *
                  (PauliElem.phaseElem N (gammaPh t g h) * selProd R t (g + h)) := by
                rw [ih]
            _ = PauliElem.phaseElem N (twoZ4 (sumAcq t g a) + gammaPh t g h) *
                  selProd R t (g + h) := by
                rw [← mul_assoc, PauliElem.phaseElem_mul_phaseElem]
        · have h0 : g a = 0 := (zmod2_cases (g a)).resolve_right hga
          have hz : (g + h) a = 1 := by rw [hgh, h0, hha, zero_add]
          rw [if_neg hga, if_pos hz]
          calc selProd R t g * (R a * selProd R t h)
              = (selProd R t g * R a) * selProd R t h := (mul_assoc _ _ _).symm
            _ = (PauliElem.phaseElem N (twoZ4 (sumAcq t g a)) *
                  (R a * selProd R t g)) * selProd R t h := by
                rw [selProd_mul_single R hsw]
            _ = PauliElem.phaseElem N (twoZ4 (sumAcq t g a)) *
                  (R a * (selProd R t g * selProd R t h)) := by
                rw [mul_assoc, mul_assoc]
            _ = PauliElem.phaseElem N (twoZ4 (sumAcq t g a)) *
                  (R a * (PauliElem.phaseElem N (gammaPh t g h) *
                    selProd R t (g + h))) := by rw [ih]
            _ = PauliElem.phaseElem N (twoZ4 (sumAcq t g a)) *
                  (PauliElem.phaseElem N (gammaPh t g h) *
                    (R a * selProd R t (g + h))) := by rw [mul_phaseElem_left]
            _ = PauliElem.phaseElem N (twoZ4 (sumAcq t g a) + gammaPh t g h) *
                  (R a * selProd R t (g + h)) := by
                rw [← mul_assoc, PauliElem.phaseElem_mul_phaseElem]
      · have h0 : h a = 0 := (zmod2_cases (h a)).resolve_right hha
        have hz : (g + h) a = g a := by rw [hgh, h0, add_zero]
        rw [if_neg hha, if_neg hha, zero_add]
        by_cases hga : g a = 1
        · rw [if_pos hga, if_pos (hz.trans hga)]
          calc (R a * selProd R t g) * selProd R t h
              = R a * (selProd R t g * selProd R t h) := mul_assoc _ _ _
            _ = R a * (PauliElem.phaseElem N (gammaPh t g h) * selProd R t (g + h)) := by
                rw [ih]
            _ = PauliElem.phaseElem N (gammaPh t g h) * (R a * selProd R t (g + h)) :=
                mul_phaseElem_left _ _ _
        · rw [if_neg hga, if_neg fun hc => hga (hz.symm.trans hc), ih]

/-! ## The merge phase over the interleaved row order -/

/-- The bare commutation cocycle of two strings: `(-1)` to the power
`Σ_i z_i(g)·x_i(h)`, as a phase in `ZMod 4`. -/
def betaPh {N : ℕ} (g h : PauliStr N) : ZMod 4 :=
  twoZ4 (∑ i : Fin N, g (i, true) * h (i, false))

lemma acqD_of_ne {N : ℕ} {j a : Fin N × Bool} (hne : j.1 ≠ a.1) : acqD j a = 0 := by
  unfold acqD
  rw [if_neg]
  rintro ⟨h1, _⟩
  exact hne h1

lemma sumAcq_of_ne {N : ℕ} (t : List (Fin N × Bool)) (g : PauliStr N)
    (a : Fin N × Bool) (hT : ∀ j ∈ t, j.1 ≠ a.1) : sumAcq t g a = 0 := by
  induction t with
  | nil => rfl
  | cons b t ih =>
      rw [sumAcq_cons, ih fun j hj => hT j (List.mem_cons_of_mem b hj)]
      rw [acqD_of_ne (hT b (List.mem_cons_self b t))]
      simp

lemma rowOrderOf_cons {N : ℕ} (i : Fin N) (l : List (Fin N)) :
    rowOrderOf (i :: l) = (i, false) :: (i, true) :: rowOrderOf l := rfl

lemma fst_mem_of_mem_rowOrderOf {N : ℕ} {j : Fin N × Bool} {l : List (Fin N)}
    (hj : j ∈ rowOrderOf l) : j.1 ∈ l := by
  unfold rowOrderOf at hj
  rw [List.mem_flatMap] at hj
  obtain ⟨i, hi, hji⟩ := hj
  simp only [List.mem_cons, List.mem_singleton, List.not_mem_nil, or_false] at hji
  rcases hji with h | h
  · rw [h]; exact hi
  · rw [h]; exact hi

lemma gammaPh_rowOrderOf {N : ℕ} (l : List (Fin N)) (hl : l.Nodup)
    (g h : PauliStr N) :
    gammaPh (rowOrderOf l) g h = twoZ4 ((l.map fun i => g (i, true) * h (i, false)).sum) := by
  induction l with
  | nil => simp [rowOrderOf, gammaPh, twoZ4]
  | cons i l ih =>
      have hnotmem : i ∉ l := (List.nodup_cons.1 hl).1
      have hnd : l.Nodup := (List.nodup_cons.1 hl).2
      have hne : ∀ j ∈ rowOrderOf l, j.1 ≠ i := by
        intro j hj hEq
        have hmem : j.1 ∈ l := fst_mem_of_mem_rowOrderOf hj
        rw [hEq] at hmem
        exact hnotmem hmem
      rw [rowOrderOf_cons, gammaPh_cons, gammaPh_cons, ih hnd]
      have hs1 : sumAcq ((i, true) :: rowOrderOf l) g (i, false) = g (i, true) := by
        rw [sumAcq_cons, sumAcq_of_ne _ _ _ hne, add_zero]
        have hone : acqD ((i, true) : Fin N × Bool) (i, false) = 1 := by
          unfold acqD
          rw [if_pos ⟨rfl, by simp⟩]
        rw [hone]
        rcases zmod2_cases (g (i, true)) with h0 | h1
        · rw [h0]; decide
        · rw [h1]; decide
      have hs2 : sumAcq (rowOrderOf l) g (i, true) = 0 := sumAcq_of_ne _ _ _ hne
      rw [hs1, hs2, twoZ4_zero, List.map_cons, List.sum_cons, twoZ4_add]
      have hhead : (if h (i, false) = 1 then twoZ4 (g (i, true)) else 0) =
          twoZ4 (g (i, true) * h (i, false)) := by
        rcases zmod2_cases (h (i, false)) with h0 | h1
        · rw [h0, mul_zero, twoZ4_zero]
          exact if_neg (by decide)
        · rw [h1, mul_one]
          exact if_pos rfl
      rw [hhead]
      simp

lemma gammaPh_rowOrder {N : ℕ} (g h : PauliStr N) :
    gammaPh (rowOrder N) g h = betaPh g h := by
  unfold rowOrder betaPh
  rw [gammaPh_rowOrderOf _ (List.nodup_finRange N), Fin.sum_univ_def]

lemma ps0_zero {N : ℕ} : ps0 (0 : PauliStr N) = 0 := by
  unfold ps0
  simp [qubitOf_zero, yBit]

/-- The bare cocycle relation: `ipow` differs from `betaPh` exactly by the
`Y`-count corrections of the two factors and the product. -/
lemma ipow_add_ps0 {N : ℕ} (g h : PauliStr N) :
    ipow g h + ps0 (g + h) = betaPh g h + ps0 g + ps0 h := by
  unfold ipow ps0 betaPh
  rw [twoZ4_sum, ← Finset.sum_add_distrib, ← Finset.sum_add_distrib, ← Finset.sum_add_distrib]
  refine Finset.sum_congr rfl fun i _ => ?_
  rw [qubitOf_add]
  exact kappa_eq_bare (qubitOf g i) (qubitOf h i)

/-! ## Valid maps: rows square to one and obey the symplectic swap rule -/

lemma row_sq {N : ℕ} {M : CliffordMap N} (hM : IsCliffordMap M) (j : Fin N × Bool) :
    M.row j * M.row j = 1 := by
  rw [PauliElem.mul_def]
  unfold CliffordMap.row
  rw [ipow_self, str_add_self]
  have h2 : M.ps j + M.ps j + 0 = 0 := by
    have := hM.2.2 j
    linear_combination this
  rw [h2]
  rfl

lemma row_swap {N : ℕ} {M : CliffordMap N} (hM : IsCliffordMap M) (j k : Fin N × Bool) :
    M.row j * M.row k =
      PauliElem.phaseElem N (twoZ4 (acqD j k)) * (M.row k * M.row j) := by
  have hsw := ipow_swap (M.gs j) (M.gs k)
  rw [hM.2.1 j k] at hsw
  rw [PauliElem.mul_def (M.row j) (M.row k), PauliElem.mul_def (M.row k) (M.row j),
    PauliElem.phaseElem_mul]
  simp only [CliffordMap.row, PauliElem.mk.injEq]
  constructor
  · linear_combination hsw
  · exact add_comm _ _

/-- Combination is multiplicative up to the bare cocycle, for a valid map. -/
lemma combineRow_mul {N : ℕ} {M : CliffordMap N} (hM : IsCliffordMap M)
    (g h : PauliStr N) :
    combineRow g M * combineRow h M =
      PauliElem.phaseElem N (betaPh g h) * combineRow (g + h) M := by
  unfold combineRow
  rw [selProd_mul M.row (row_sq hM) (row_swap hM), gammaPh_rowOrder]

lemma selProd_zero {N : ℕ} (R : Fin N × Bool → PauliElem N)
    (ℓ : List (Fin N × Bool)) : selProd R ℓ (0 : PauliStr N) = 1 := by
  induction ℓ with
  | nil => rfl
  | cons a t ih =>
      rw [selProd_cons, if_neg (by simp : ¬((0 : PauliStr N) a = 1)), ih]

lemma combineRow_zero {N : ℕ} (M : CliffordMap N) :
    combineRow (0 : PauliStr N) M = 1 :=
  selProd_zero M.row (rowOrder N)

lemma transformElem_one {N : ℕ} (M : CliffordMap N) :
    transformElem 1 M = 1 := by
  unfold transformElem
  rw [PauliElem.one_def]
  show PauliElem.mk (0 + ps0 0 + (combineRow 0 M).ph) (combineRow 0 M).str = ⟨0, 0⟩
  rw [combineRow_zero, ps0_zero]
  rfl

/-- Transforming by a valid map is multiplicative: the heart of the
associativity and two-sided-inverse arguments. -/
lemma transformElem_mul {N : ℕ} {M : CliffordMap N} (hM : IsCliffordMap M)
    (P Q : PauliElem N) :
    transformElem (P * Q) M = transformElem P M * transformElem Q M := by
  have hcomb := combineRow_mul hM P.str Q.str
  have hph := congrArg PauliElem.ph hcomb
  have hstr := congrArg PauliElem.str hcomb
  rw [PauliElem.ph_mul, PauliElem.phaseElem_mul] at hph
  rw [PauliElem.str_mul, PauliElem.phaseElem_mul] at hstr
  have hbare := ipow_add_ps0 P.str Q.str
  unfold transformElem
  rw [PauliElem.mul_def, PauliElem.mul_def]
  simp only [PauliElem.mk.injEq]
  constructor
  · show P.ph + Q.ph + ipow P.str Q.str + ps0 (P.str + Q.str) +
        (combineRow (P.str + Q.str) M).ph = _
    linear_combination hbare - hph
  · show (combineRow (P.str + Q.str) M).str = _
    rw [← hstr]

/-! ## Composition of Clifford maps -/

lemma compose_row {N : ℕ} (A B : CliffordMap N) (j : Fin N × Bool) :
    (A.compose B).row j = transformElem (A.row j) B := rfl

lemma cliffordMap_eq_of_rows {N : ℕ} {A B : CliffordMap N}
    (h : ∀ j, A.row j = B.row j) : A = B := by
  rcases A with ⟨ga, pa⟩
  rcases B with ⟨gb, pb⟩
  have hgs : ga = gb := funext fun j => congrArg PauliElem.str (h j)
  have hps : pa = pb := funext fun j => congrArg PauliElem.ph (h j)
  rw [hgs, hps]

/-- Combination against a composite map factors through transformation by the
(valid) second map. -/
lemma combineRow_compose {N : ℕ} (B : CliffordMap N) {C : CliffordMap N}
    (hC : IsCliffordMap C) (g : PauliStr N) :
    combineRow g (B.compose C) = transformElem (combineRow g B) C := by
  unfold combineRow selProd
  have hrow : (B.compose C).row = fun k => transformElem (B.row k) C := rfl
  rw [hrow]
  have hmap : ((rowOrder N).filter fun k => g k = 1).map
        (fun k => transformElem (B.row k) C) =
      (((rowOrder N).filter fun k => g k = 1).map B.row).map
        (fun P => transformElem P C) := by
    rw [List.map_map]
    rfl
  rw [hmap]
  have hT := List.prod_hom (((rowOrder N).filter fun k => g k = 1).map B.row)
    (MonoidHom.mk (OneHom.mk (fun P : PauliElem N => transformElem P C)
      (transformElem_one C)) (transformElem_mul hC))
  exact hT

lemma transformElem_ph {N : ℕ} (P : PauliElem N) (M : CliffordMap N) :
    (transformElem P M).ph = P.ph + ps0 P.str + (combineRow P.str M).ph := rfl

lemma transformElem_str {N : ℕ} (P : PauliElem N) (M : CliffordMap N) :
    (transformElem P M).str = (combineRow P.str M).str := rfl

lemma transformElem_transformElem {N : ℕ} (P : PauliElem N) (B : CliffordMap N)
    {C : CliffordMap N} (hC : IsCliffordMap C) :
    transformElem (transformElem P B) C = transformElem P (B.compose C) := by
  have hcc := combineRow_compose B hC P.str
  have hph : (transformElem (transformElem P B) C).ph =
      (transformElem P (B.compose C)).ph := by
    simp only [transformElem_ph, transformElem_str, hcc]
    ring
  have hstr : (transformElem (transformElem P B) C).str =
      (transformElem P (B.compose C)).str := by
    simp only [transformElem_str, hcc]
  rcases hA : transformElem (transformElem P B) C with ⟨p1, s1⟩
  rcases hB : transformElem P (B.compose C) with ⟨p2, s2⟩
  rw [hA, hB] at hph hstr
  dsimp only at hph hstr
  rw [hph, hstr]

/-- Associativity of composition, when the outermost map is valid. -/
lemma compose_assoc_of_valid {N : ℕ} (A B : CliffordMap N) {C : CliffordMap N}
    (hC : IsCliffordMap C) :
    (A.compose B).compose C = A.compose (B.compose C) := by
  refine cliffordMap_eq_of_rows fun j => ?_
  rw [compose_row, compose_row, compose_row]
  exact transformElem_transformElem (A.row j) B hC

/-! ## Identity laws for composition -/

/-- Restriction of a string to the qubits of a list. -/
def maskStr {N : ℕ} (l : List (Fin N)) (g : PauliStr N) : PauliStr N :=
  fun k => if k.1 ∈ l then g k else 0

/-- Partial `Y`-count over a list of qubits. -/
def psPart {N : ℕ} (l : List (Fin N)) (g : PauliStr N) : ZMod 4 :=
  (l.map fun i => yBit (qubitOf g i)).sum

lemma ipow_disjoint {N : ℕ} (u v : PauliStr N)
    (h : ∀ q, qubitOf u q = 0 ∨ qubitOf v q = 0) : ipow u v = 0 := by
  unfold ipow
  refine Finset.sum_eq_zero fun q _ => ?_
  rcases h q with h0 | h0
  · rw [h0]; exact kappa_zero_left _
  · rw [h0]; exact kappa_zero_right _

lemma qubitOf_maskStr_not_mem {N : ℕ} {l : List (Fin N)} {q : Fin N}
    (hq : q ∉ l) (g : PauliStr N) : qubitOf (maskStr l g) q = 0 := by
  unfold qubitOf maskStr
  rw [if_neg hq, if_neg hq]
  rfl

lemma identityMap_row {N : ℕ} (k : Fin N × Bool) :
    (identity_map N).row k = ⟨0, (1 : Matrix (Fin N × Bool) (Fin N × Bool) (ZMod 2)) k⟩ :=
  rfl

lemma selProd_append {N : ℕ} (R : Fin N × Bool → PauliElem N)
    (ℓ₁ ℓ₂ : List (Fin N × Bool)) (c : PauliStr N) :
    selProd R (ℓ₁ ++ ℓ₂) c = selProd R ℓ₁ c * selProd R ℓ₂ c := by
  unfold selProd
  rw [List.filter_append, List.map_append, List.prod_append]

lemma qubitOf_one_ne {N : ℕ} {j : Fin N × Bool} {q : Fin N} (h : j.1 ≠ q) :
    qubitOf ((1 : Matrix (Fin N × Bool) (Fin N × Bool) (ZMod 2)) j) q = 0 := by
  unfold qubitOf
  have h1 : j ≠ (q, false) := fun hc => h (congrArg Prod.fst hc)
  have h2 : j ≠ (q, true) := fun hc => h (congrArg Prod.fst hc)
  rw [Matrix.one_apply_ne h1, Matrix.one_apply_ne h2]
  rfl

lemma qubitOf_one_false {N : ℕ} (i : Fin N) :
    qubitOf ((1 : Matrix (Fin N × Bool) (Fin N × Bool) (ZMod 2)) (i, false)) i = (1, 0) := by
  unfold qubitOf
  rw [Matrix.one_apply_eq, Matrix.one_apply_ne (by simp)]

lemma qubitOf_one_true {N : ℕ} (i : Fin N) :
    qubitOf ((1 : Matrix (Fin N × Bool) (Fin N × Bool) (ZMod 2)) (i, true)) i = (0, 1) := by
  unfold qubitOf
  rw [Matrix.one_apply_eq, Matrix.one_apply_ne (by simp)]

lemma ipow_one_pair {N : ℕ} (i : Fin N) :
    ipow ((1 : Matrix (Fin N × Bool) (Fin N × Bool) (ZMod 2)) (i, false))
      ((1 : Matrix (Fin N × Bool) (Fin N × Bool) (ZMod 2)) (i, true)) = 3 := by
  unfold ipow
  rw [Finset.sum_eq_single i]
  · rw [qubitOf_one_false, qubitOf_one_true]
    decide
  · intro q _ hq
    rw [qubitOf_one_ne (show ((i, false) : Fin N × Bool).1 ≠ q from fun hc => hq hc.symm)]
    exact kappa_zero_left _
  · intro habs
    exact absurd (Finset.mem_univ i) habs

/-- The product of the two identity-map rows of one qubit selected by `g`. -/
lemma selProd_identity_pair {N : ℕ} (i : Fin N) (g : PauliStr N) :
    selProd (identity_map N).row [(i, false), (i, true)] g =
      ⟨-(yBit (qubitOf g i)), fun k => if k.1 = i then g k else 0⟩ := by
  have hq : qubitOf g i = (g (i, false), g (i, true)) := rfl
  rw [selProd_cons, selProd_cons, selProd_nil]
  rcases zmod2_cases (g (i, false)) with h0 | h1 <;>
    rcases zmod2_cases (g (i, true)) with k0 | k1
  · rw [if_neg (by rw [h0]; decide), if_neg (by rw [k0]; decide)]
    rw [hq, h0, k0]
    have hstr : (fun k : Fin N × Bool => if k.1 = i then g k else 0) = 0 := by
      funext k
      by_cases hk : k.1 = i
      · rcases k with ⟨q, b⟩
        rcases hk
        cases b
        · rw [if_pos rfl, h0]; rfl
        · rw [if_pos rfl, k0]; rfl
      · rw [if_neg hk]; rfl
    rw [hstr]
    have hy : -(yBit ((0 : ZMod 2), (0 : ZMod 2))) = 0 := by decide
    rw [hy, PauliElem.one_def]
  · rw [if_neg (by rw [h0]; decide), if_pos k1, mul_one, identityMap_row]
    rw [hq, h0, k1]
    have hstr : (fun k : Fin N × Bool => if k.1 = i then g k else 0) =
        (1 : Matrix (Fin N × Bool) (Fin N × Bool) (ZMod 2)) (i, true) := by
      funext k
      by_cases hk : k.1 = i
      · rcases k with ⟨q, b⟩
        rcases hk
        cases b
        · rw [if_pos rfl, h0, Matrix.one_apply_ne (by simp)]
        · rw [if_pos rfl, k1, Matrix.one_apply_eq]
      · rw [if_neg hk, Matrix.one_apply_ne fun hc => hk (congrArg Prod.fst hc).symm]
    rw [hstr]
    have : -(yBit ((0 : ZMod 2), (1 : ZMod 2))) = 0 := by decide
    rw [this]
  · rw [if_pos h1, if_neg (by rw [k0]; decide), mul_one, identityMap_row]
    rw [hq, h1, k0]
    have hstr : (fun k : Fin N × Bool => if k.1 = i then g k else 0) =
        (1 : Matrix (Fin N × Bool) (Fin N × Bool) (ZMod 2)) (i, false) := by
      funext k
      by_cases hk : k.1 = i
      · rcases k with ⟨q, b⟩
        rcases hk
        cases b
        · rw [if_pos rfl, h1, Matrix.one_apply_eq]
        · rw [if_pos rfl, k0, Matrix.one_apply_ne (by simp)]
      · rw [if_neg hk, Matrix.one_apply_ne fun hc => hk (congrArg Prod.fst hc).symm]
    rw [hstr]
    have : -(yBit ((1 : ZMod 2), (0 : ZMod 2))) = 0 := by decide
    rw [this]
  · rw [if_pos h1, if_pos k1, mul_one, identityMap_row, identityMap_row,
      PauliElem.mul_def]
    rw [hq, h1, k1]
    have hstr : (fun k : Fin N × Bool => if k.1 = i then g k else 0) =
        (1 : Matrix (Fin N × Bool) (Fin N × Bool) (ZMod 2)) (i, false) +
        (1 : Matrix (Fin N × Bool) (Fin N × Bool) (ZMod 2)) (i, true) := by
      funext k
      by_cases hk : k.1 = i
      · rcases k with ⟨q, b⟩
        rcases hk
        cases b
        · rw [if_pos rfl, h1, Pi.add_apply, Matrix.one_apply_eq,
            Matrix.one_apply_ne (by simp)]
          rfl
        · rw [if_pos rfl, k1, Pi.add_apply, Matrix.one_apply_eq,
            Matrix.one_apply_ne (by simp)]
          rfl
      · rw [if_neg hk, Pi.add_apply,
          Matrix.one_apply_ne fun hc => hk (congrArg Prod.fst hc).symm,
          Matrix.one_apply_ne fun hc => hk (congrArg Prod.fst hc).symm]
        rfl
    rw [ipow_one_pair, hstr]
    have : (0 : ZMod 4) + 0 + 3 = -(yBit ((1 : ZMod 2), (1 : ZMod 2))) := by decide
    rw [this]

lemma selProd_identity_aux {N : ℕ} (l : List (Fin N)) (hl : l.Nodup) (g : PauliStr N) :
    selProd (identity_map N).row (rowOrderOf l) g = ⟨-(psPart l g), maskStr l g⟩ := by
  induction l with
  | nil =>
      have hro : rowOrderOf ([] : List (Fin N)) = [] := rfl
      rw [hro, selProd_nil]
      have hm : maskStr ([] : List (Fin N)) g = 0 := by
        funext k
        exact if_neg (List.not_mem_nil k.1)
      have hp : psPart ([] : List (Fin N)) g = 0 := rfl
      rw [hm, hp, neg_zero, PauliElem.one_def]
  | cons i l ih =>
      have hnm : i ∉ l := (List.nodup_cons.1 hl).1
      have hnd : l.Nodup := (List.nodup_cons.1 hl).2
      have happ : rowOrderOf (i :: l) = [(i, false), (i, true)] ++ rowOrderOf l := rfl
      rw [happ, selProd_append, selProd_identity_pair, ih hnd, PauliElem.mul_def]
      have hip : ipow (fun k : Fin N × Bool => if k.1 = i then g k else 0)
          (maskStr l g) = 0 := by
        refine ipow_disjoint _ _ fun q => ?_
        by_cases hq : q = i
        · right
          rw [hq]
          exact qubitOf_maskStr_not_mem hnm g
        · left
          unfold qubitOf
          dsimp only
          rw [if_neg (show ¬(q = i) from hq), if_neg (show ¬(q = i) from hq)]
          rfl
      have hstr : (fun k : Fin N × Bool => if k.1 = i then g k else 0) + maskStr l g =
          maskStr (i :: l) g := by
        funext k
        rw [Pi.add_apply]
        unfold maskStr
        by_cases hk : k.1 = i
        · rw [if_pos hk, if_neg (by rw [hk]; exact hnm),
            if_pos (by rw [hk]; exact List.mem_cons_self i l), add_zero]
        · rw [if_neg hk]
          by_cases hkl : k.1 ∈ l
          · rw [if_pos hkl, if_pos (List.mem_cons_of_mem i hkl), zero_add]
          · rw [if_neg hkl, if_neg (by
              intro hc
              rcases List.mem_cons.1 hc with hc | hc
              · exact hk hc
              · exact hkl hc), zero_add]
      have hph : -(yBit (qubitOf g i)) + -(psPart l g) + ipow
          (fun k : Fin N × Bool => if k.1 = i then g k else 0) (maskStr l g) =
          -(psPart (i :: l) g) := by
        rw [hip]
        have hcons : psPart (i :: l) g = yBit (qubitOf g i) + psPart l g := by
          unfold psPart
          rw [List.map_cons, List.sum_cons]
        rw [hcons]
        ring
      rw [hph, hstr]

/-- Modelled-from-spec consequence: combining the identity map by
coefficients `g` returns the string `g` with the bare phase `-ps0 g`
(the ordered product of bare generators is `i^(-ps0 g) σ_g`). -/
lemma combineRow_identity {N : ℕ} (g : PauliStr N) :
    combineRow g (identity_map N) = ⟨-(ps0 g), g⟩ := by
  unfold combineRow rowOrder
  rw [selProd_identity_aux _ (List.nodup_finRange N) g]
  have hp : psPart (List.finRange N) g = ps0 g := by
    unfold psPart ps0
    rw [Fin.sum_univ_def]
  have hm : maskStr (List.finRange N) g = g := by
    funext k
    exact if_pos (List.mem_finRange k.1)
  rw [hp, hm]

/-- `compose` with the identity map on the right returns the map unchanged. -/
lemma compose_identity_right {N : ℕ} (M : CliffordMap N) :
    M.compose (identity_map N) = M := by
  refine cliffordMap_eq_of_rows fun j => ?_
  rw [compose_row]
  have hph : (transformElem (M.row j) (identity_map N)).ph = (M.row j).ph := by
    rw [transformElem_ph, combineRow_identity]
    show M.ps j + ps0 (M.gs j) + -(ps0 (M.gs j)) = M.ps j
    ring
  have hstr : (transformElem (M.row j) (identity_map N)).str = (M.row j).str := by
    rw [transformElem_str, combineRow_identity]
  rcases hE : transformElem (M.row j) (identity_map N) with ⟨p, s⟩
  rw [hE] at hph hstr
  dsimp only at hph hstr
  rw [hph, hstr]

lemma filter_eq_nil_of_none {α : Type} (p : α → Bool) :
    ∀ (l : List α), (∀ k ∈ l, ¬p k = true) → l.filter p = []
  | [], _ => rfl
  | a :: t, h => by
      rw [List.filter_cons, if_neg (h a (List.mem_cons_self a t))]
      exact filter_eq_nil_of_none p t fun k hk => h k (List.mem_cons_of_mem a hk)

lemma filter_eq_singleton {α : Type} (p : α → Bool) (j : α) :
    ∀ (l : List α), l.Nodup → j ∈ l → (∀ k, p k = true ↔ k = j) →
      l.filter p = [j]
  | [], _, hj, _ => absurd hj (List.not_mem_nil j)
  | a :: t, hnd, hj, hp => by
      by_cases haj : a = j
      · rw [List.filter_cons, if_pos ((hp a).2 haj), haj]
        have ht : t.filter p = [] := by
          refine filter_eq_nil_of_none p t fun k hk hpk => ?_
          have hkj := (hp k).1 hpk
          rw [hkj] at hk
          rw [haj] at hnd
          exact (List.nodup_cons.1 hnd).1 hk
        rw [ht]
      · rw [List.filter_cons, if_neg (fun hpa => haj ((hp a).1 hpa))]
        have hjt : j ∈ t := by
          rcases List.mem_cons.1 hj with h | h
          · exact absurd h.symm haj
          · exact h
        exact filter_eq_singleton p j t (List.nodup_cons.1 hnd).2 hjt hp

/-- Combining a map with a basis coefficient vector returns that row. -/
lemma combineRow_delta {N : ℕ} (M : CliffordMap N) (j : Fin N × Bool) :
    combineRow ((1 : Matrix (Fin N × Bool) (Fin N × Bool) (ZMod 2)) j) M = M.row j := by
  unfold combineRow selProd
  have hfil : (rowOrder N).filter
      (fun k => (1 : Matrix (Fin N × Bool) (Fin N × Bool) (ZMod 2)) j k = 1) = [j] := by
    refine filter_eq_singleton _ j (rowOrder N) rowOrder_nodup (mem_rowOrder j) fun k => ?_
    constructor
    · intro hpk
      by_contra hkj
      have : (1 : Matrix (Fin N × Bool) (Fin N × Bool) (ZMod 2)) j k = 0 :=
        Matrix.one_apply_ne fun hc => hkj hc.symm
      rw [decide_eq_true_eq] at hpk
      rw [this] at hpk
      exact absurd hpk (by decide)
    · intro hkj
      rw [hkj, decide_eq_true_eq, Matrix.one_apply_eq]
  rw [hfil, List.map_singleton, List.prod_singleton]

lemma ps0_delta {N : ℕ} (j : Fin N × Bool) :
    ps0 ((1 : Matrix (Fin N × Bool) (Fin N × Bool) (ZMod 2)) j) = 0 := by
  unfold ps0
  refine Finset.sum_eq_zero fun q _ => ?_
  by_cases hq : j.1 = q
  · rcases j with ⟨i, b⟩
    rcases hq
    cases b
    · rw [qubitOf_one_false]
      decide
    · rw [qubitOf_one_true]
      decide
  · rw [qubitOf_one_ne hq]
    decide

/-- `compose` with the identity map on the left returns the map unchanged. -/
lemma compose_identity_left {N : ℕ} (M : CliffordMap N) :
    (identity_map N).compose M = M := by
  refine cliffordMap_eq_of_rows fun j => ?_
  rw [compose_row, identityMap_row]
  have hph : (transformElem ⟨0, (1 : Matrix (Fin N × Bool) (Fin N × Bool) (ZMod 2)) j⟩
      M).ph = (M.row j).ph := by
    rw [transformElem_ph, combineRow_delta, ps0_delta]
    show 0 + 0 + (M.row j).ph = (M.row j).ph
    ring
  have hstr : (transformElem ⟨0, (1 : Matrix (Fin N × Bool) (Fin N × Bool) (ZMod 2)) j⟩
      M).str = (M.row j).str := by
    rw [transformElem_str, combineRow_delta]
  rcases hE : transformElem ⟨0, (1 : Matrix (Fin N × Bool) (Fin N × Bool) (ZMod 2)) j⟩ M
    with ⟨p, s⟩
  rw [hE] at hph hstr
  dsimp only at hph hstr
  rw [hph, hstr]

/-! ## The inverse map: left inverse and preservation of validity -/

lemma vecMul_row {N : ℕ} (A B : Matrix (Fin N × Bool) (Fin N × Bool) (ZMod 2))
    (j : Fin N × Bool) : Matrix.vecMul (A j) B = (A * B) j := by
  funext k
  rw [Matrix.mul_apply]
  rfl

lemma z2inv_mul {N : ℕ} (A : Matrix (Fin N × Bool) (Fin N × Bool) (ZMod 2))
    (hdet : A.det = 1) : z2inv A * A = 1 := by
  unfold z2inv
  rw [Matrix.adjugate_mul, hdet, one_smul]

lemma mul_z2inv {N : ℕ} (A : Matrix (Fin N × Bool) (Fin N × Bool) (ZMod 2))
    (hdet : A.det = 1) : A * z2inv A = 1 := by
  unfold z2inv
  rw [Matrix.mul_adjugate, hdet, one_smul]

lemma inverse_row {N : ℕ} (M : CliffordMap N) (j : Fin N × Bool) :
    M.inverse.row j = ⟨-(combineRow (z2inv M.gs j) M).ph - ps0 (z2inv M.gs j),
      z2inv M.gs j⟩ := rfl

/-- The source's inverse is a left inverse: composing it with the original
map (inverse first) yields the identity map.  Only invertibility of the
binary matrix is needed. -/
lemma compose_inverse_left {N : ℕ} (M : CliffordMap N) (hdet : M.gs.det = 1) :
    (M.inverse).compose M = identity_map N := by
  refine cliffordMap_eq_of_rows fun j => ?_
  rw [compose_row, identityMap_row, inverse_row]
  have hph : (transformElem ⟨-(combineRow (z2inv M.gs j) M).ph - ps0 (z2inv M.gs j),
      z2inv M.gs j⟩ M).ph = 0 := by
    rw [transformElem_ph]
    show -(combineRow (z2inv M.gs j) M).ph - ps0 (z2inv M.gs j) + ps0 (z2inv M.gs j) +
      (combineRow (z2inv M.gs j) M).ph = 0
    ring
  have hstr : (transformElem ⟨-(combineRow (z2inv M.gs j) M).ph - ps0 (z2inv M.gs j),
      z2inv M.gs j⟩ M).str = (1 : Matrix (Fin N × Bool) (Fin N × Bool) (ZMod 2)) j := by
    rw [transformElem_str, combineRow_str]
    show Matrix.vecMul (z2inv M.gs j) M.gs = _
    rw [vecMul_row, z2inv_mul M.gs hdet]
  rcases hE : transformElem ⟨-(combineRow (z2inv M.gs j) M).ph - ps0 (z2inv M.gs j),
      z2inv M.gs j⟩ M with ⟨p, s⟩
  rw [hE] at hph hstr
  dsimp only at hph hstr
  rw [hph, hstr]

/-- The symplectic pairing matrix on positions. -/
def Jmat (N : ℕ) : Matrix (Fin N × Bool) (Fin N × Bool) (ZMod 2) :=
  fun j k => acqD j k

lemma acqD_pair {N : ℕ} (j : Fin N × Bool) : acqD j (j.1, !j.2) = 1 := by
  unfold acqD
  rw [if_pos ⟨rfl, by cases j.2 <;> simp⟩]

lemma acqD_eq_zero_of_ne_pair {N : ℕ} {j k : Fin N × Bool} (h : k ≠ (j.1, !j.2)) :
    acqD j k = 0 := by
  unfold acqD
  rw [if_neg]
  rintro ⟨h1, h2⟩
  refine h ?_
  rcases k with ⟨k1, k2⟩
  rcases j with ⟨j1, j2⟩
  dsimp only at h1 h2
  rw [← h1]
  have : k2 = !j2 := by
    cases j2 <;> cases k2 <;> first | rfl | exact absurd rfl h2
  rw [this]

lemma mulVec_J {N : ℕ} (h : PauliStr N) (j : Fin N × Bool) :
    (Jmat N).mulVec h j = h (j.1, !j.2) := by
  unfold Matrix.mulVec Matrix.dotProduct Jmat
  rw [Finset.sum_eq_single (j.1, !j.2)]
  · show acqD j (j.1, !j.2) * h (j.1, !j.2) = h (j.1, !j.2)
    rw [acqD_pair, one_mul]
  · intro k _ hk
    show acqD j k * h k = 0
    rw [acqD_eq_zero_of_ne_pair hk, zero_mul]
  · intro habs
    exact absurd (Finset.mem_univ _) habs

lemma acq_eq_form {N : ℕ} (g h : PauliStr N) :
    acq g h = Matrix.dotProduct g ((Jmat N).mulVec h) := by
  unfold Matrix.dotProduct acq
  have hv : ∀ j : Fin N × Bool, g j * (Jmat N).mulVec h j = g j * h (j.1, !j.2) := by
    intro j
    rw [mulVec_J]
  rw [Finset.sum_congr rfl fun j _ => hv j]
  rw [Fintype.sum_prod_type]
  refine Finset.sum_congr rfl fun i _ => ?_
  rw [Fintype.sum_bool]
  show acqBit (qubitOf g i) (qubitOf h i) = g (i, true) * h (i, false) + g (i, false) * h (i, true)
  unfold acqBit qubitOf
  ring

lemma sandwich_apply {N : ℕ} (A : Matrix (Fin N × Bool) (Fin N × Bool) (ZMod 2))
    (j k : Fin N × Bool) :
    (A * Jmat N * A.transpose) j k = Matrix.dotProduct (A j) ((Jmat N).mulVec (A k)) := by
  rw [Matrix.mul_apply]
  unfold Matrix.dotProduct
  have hterm : ∀ l, (A * Jmat N) j l * A.transpose l k =
      ∑ m, A j m * (Jmat N m l * A k l) := by
    intro l
    rw [Matrix.mul_apply, Matrix.transpose_apply, Finset.sum_mul]
    exact Finset.sum_congr rfl fun m _ => by ring
  rw [Finset.sum_congr rfl fun l _ => hterm l, Finset.sum_comm]
  refine Finset.sum_congr rfl fun m _ => ?_
  unfold Matrix.mulVec Matrix.dotProduct
  rw [Finset.mul_sum]

lemma symplectic_matrix_of {N : ℕ} {M : CliffordMap N} (hM : IsCliffordMap M) :
    M.gs * Jmat N * M.gs.transpose = Jmat N := by
  funext j k
  rw [sandwich_apply, ← acq_eq_form, hM.2.1 j k]
  rfl

lemma symplectic_of_matrix {N : ℕ} {A : Matrix (Fin N × Bool) (Fin N × Bool) (ZMod 2)}
    (hA : A * Jmat N * A.transpose = Jmat N) (j k : Fin N × Bool) :
    acq (A j) (A k) = acqD j k := by
  rw [acq_eq_form, ← sandwich_apply, hA]
  rfl

lemma isCliffordMap_inverse {N : ℕ} {M : CliffordMap N} (hM : IsCliffordMap M) :
    IsCliffordMap M.inverse := by
  have hBA : z2inv M.gs * M.gs = 1 := z2inv_mul M.gs hM.1
  have hAB : M.gs * z2inv M.gs = 1 := mul_z2inv M.gs hM.1
  refine ⟨?_, ?_, ?_⟩
  · show (z2inv M.gs).det = 1
    unfold z2inv
    rw [Matrix.det_adjugate, hM.1, one_pow]
  · have hJ : M.gs * Jmat N * M.gs.transpose = Jmat N := symplectic_matrix_of hM
    have hmat : z2inv M.gs * Jmat N * (z2inv M.gs).transpose = Jmat N := by
      calc z2inv M.gs * Jmat N * (z2inv M.gs).transpose
          = z2inv M.gs * (M.gs * Jmat N * M.gs.transpose) * (z2inv M.gs).transpose := by
            rw [hJ]
        _ = (z2inv M.gs * M.gs) * Jmat N *
              (M.gs.transpose * (z2inv M.gs).transpose) := by
            rw [← Matrix.mul_assoc, ← Matrix.mul_assoc, Matrix.mul_assoc
              (z2inv M.gs * M.gs * Jmat N)]
        _ = Jmat N := by
            rw [hBA, Matrix.one_mul, ← Matrix.transpose_mul, hBA, Matrix.transpose_one,
              Matrix.mul_one]
    exact symplectic_of_matrix hmat
  · intro j
    have hX : transformElem ⟨0, z2inv M.gs j⟩ M * transformElem ⟨0, z2inv M.gs j⟩ M
        = 1 := by
      rw [← transformElem_mul hM]
      have hsq : (⟨0, z2inv M.gs j⟩ : PauliElem N) * ⟨0, z2inv M.gs j⟩ = 1 := by
        rw [PauliElem.mul_def]
        dsimp only
        rw [ipow_self, str_add_self]
        have : (0 : ZMod 4) + 0 + 0 = 0 := by ring
        rw [this]
        rfl
      rw [hsq, transformElem_one]
    have hph := congrArg PauliElem.ph hX
    rw [PauliElem.ph_mul, ipow_self] at hph
    have hph2 : 2 * ((transformElem ⟨0, z2inv M.gs j⟩ M).ph) = 0 := by
      have hone : (1 : PauliElem N).ph = 0 := rfl
      rw [hone] at hph
      linear_combination hph
    rw [transformElem_ph] at hph2
    show 2 * (-(combineRow (z2inv M.gs j) M).ph - ps0 (z2inv M.gs j)) = 0
    have hzero : (⟨0, z2inv M.gs j⟩ : PauliElem N).ph = 0 := rfl
    have hstr : (⟨0, z2inv M.gs j⟩ : PauliElem N).str = z2inv M.gs j := rfl
    rw [hzero, hstr] at hph2
    linear_combination -hph2

set_option maxHeartbeats 2000000 in
/-- Group law (spec section 8): for a valid Clifford map, the source's
`inverse` is also a right inverse.  Proved by the standard monoid argument
from the left-inverse law, the identity laws, and associativity. -/
lemma compose_inverse_eq_identity {N : ℕ} (M : CliffordMap N)
    (hM : IsCliffordMap M) : M.compose M.inverse = identity_map N := by
  have hB : IsCliffordMap M.inverse := isCliffordMap_inverse hM
  have hL : (M.inverse).compose M = identity_map N := compose_inverse_left M hM.1
  have hLB : (M.inverse.inverse).compose M.inverse = identity_map N :=
    compose_inverse_left M.inverse hB.1
  have hassoc : (M.inverse.inverse.compose M.inverse).compose M =
      M.inverse.inverse.compose (M.inverse.compose M) :=
    compose_assoc_of_valid _ _ hM
  rw [hLB, compose_identity_left, hL, compose_identity_right] at hassoc
  nth_rewrite 1 [hassoc]
  exact hLB

lemma acqBit_zero_left : ∀ q : PauliBit, acqBit 0 q = 0 := by decide

lemma acqBit_zero_right : ∀ p : PauliBit, acqBit p 0 = 0 := by decide

lemma acq_delta {N : ℕ} (j k : Fin N × Bool) :
    acq ((1 : Matrix (Fin N × Bool) (Fin N × Bool) (ZMod 2)) j)
      ((1 : Matrix (Fin N × Bool) (Fin N × Bool) (ZMod 2)) k) = acqD j k := by
  rw [acq_eq_form]
  unfold Matrix.dotProduct
  have hcong : ∀ m : Fin N × Bool,
      (1 : Matrix (Fin N × Bool) (Fin N × Bool) (ZMod 2)) j m *
        (Jmat N).mulVec ((1 : Matrix (Fin N × Bool) (Fin N × Bool) (ZMod 2)) k) m =
      (1 : Matrix (Fin N × Bool) (Fin N × Bool) (ZMod 2)) j m *
        (1 : Matrix (Fin N × Bool) (Fin N × Bool) (ZMod 2)) k (m.1, !m.2) := by
    intro m
    rw [mulVec_J]
  rw [Finset.sum_congr rfl fun m _ => hcong m, Finset.sum_eq_single j]
  · rw [Matrix.one_apply_eq, one_mul]
    by_cases hk : k = (j.1, !j.2)
    · rw [hk, Matrix.one_apply_eq, acqD_pair]
    · rw [Matrix.one_apply_ne hk, acqD_eq_zero_of_ne_pair hk]
  · intro m _ hm
    rw [Matrix.one_apply_ne fun hc => hm hc.symm, zero_mul]
  · intro habs
    exact absurd (Finset.mem_univ _) habs

/-- The identity map is a valid Clifford map. -/
lemma isCliffordMap_identity (N : ℕ) : IsCliffordMap (identity_map N) := by
  refine ⟨?_, ?_, ?_⟩
  · show (1 : Matrix (Fin N × Bool) (Fin N × Bool) (ZMod 2)).det = 1
    exact Matrix.det_one
  · exact fun j k => acq_delta j k
  · intro j
    show 2 * (0 : ZMod 4) = 0
    ring

/-- The Hadamard-like one-qubit Clifford map `X ↦ Z`, `Z ↦ -X`: a concrete
valid map used as a witness input. -/
def hadamardLike : CliffordMap 1 :=
  ⟨fun j k => if j.2 ≠ k.2 then 1 else 0, fun j => if j.2 then 2 else 0⟩

/-- C1: For every valid Clifford map `M` of `N` qubits,
`compose(M, inverse(M))` equals `identity_map(N)`: the resulting binary
matrix is the `2N×2N` identity and every resulting phase is `0`. -/
theorem C1_compose_inverse_is_identity {N : ℕ} (M : CliffordMap N)
    (hM : IsCliffordMap M) :
    (M.compose M.inverse).gs = 1 ∧ (M.compose M.inverse).ps = 0 ∧
      M.compose M.inverse = identity_map N := by
  have h := compose_inverse_eq_identity M hM
  exact ⟨by rw [h]; rfl, by rw [h]; rfl, h⟩

/-- Witness for C1 at the concrete one-qubit Hadamard-like map. -/
theorem C1_witness :
    IsCliffordMap hadamardLike ∧
      ((hadamardLike.compose hadamardLike.inverse).gs = 1 ∧
        (hadamardLike.compose hadamardLike.inverse).ps = 0 ∧
        hadamardLike.compose hadamardLike.inverse = identity_map 1) :=
  ⟨by decide, C1_compose_inverse_is_identity hadamardLike (by decide)⟩

/-! ## C4: composition semantics and non-commutativity -/

/-- The one-qubit phase-gate-like Clifford map `X ↦ Y`, `Z ↦ Z`. -/
def sGateLike : CliffordMap 1 :=
  ⟨fun j k => if j.2 then (if k.2 then 1 else 0) else 1, 0⟩

/-- C4: `compose(A, B)` is the map in which `A` transforms first — it equals
`pauli_transform(A.gs, A.ps, B.gs, B.ps)` — and composition is not
commutative in general (witnessed by two concrete one-qubit maps). -/
theorem C4_compose_transform_first :
    (∀ (N : ℕ) (A B : CliffordMap N),
      A.compose B = ⟨(pauli_transform A.gs A.ps B.gs B.ps).1,
        (pauli_transform A.gs A.ps B.gs B.ps).2⟩) ∧
    sGateLike.compose hadamardLike ≠ hadamardLike.compose sGateLike :=
  ⟨fun _ _ _ => rfl, by decide⟩

/-! ## Stabilizer states

A stabilizer state (source class `StabilizerState`) is a `2N×2N` binary
tableau with phases and a rank marker `r`.  Python rows `0..N-1` are the
stabilizer rows and rows `N..2N-1` the destabilizer rows; we index row
`i` as `(false, i)` and row `N+i` as `(true, i)`.  Rows `[r, N)` are the
active stabilizers. -/

structure StabilizerState (N : ℕ) where
  rows : Bool × Fin N → PauliStr N
  phs : Bool × Fin N → ZMod 4
  r : ℕ
deriving DecidableEq

/-- Source `StabilizerState.set_r` (src/stabilizer.py lines 108-111):
`self.r = 0 if r is None else r`. -/
def StabilizerState.set_r {N : ℕ} (S : StabilizerState N) (r : Option ℕ) :
    StabilizerState N :=
  { S with r := r.getD 0 }

/-- Modelled from the spec (missing kernel `map_to_state`, spec section 4.3
and the source docstring of `to_state`: "the state is generated by the map
from the zero state"): the zero state is stabilized by the `Z_i` and
destabilized by the `X_i`, so stabilizer row `i` of the tableau is the
map's image of `Z_i` (map row `2i+1`) and destabilizer row `i` is the image
of `X_i` (map row `2i`); phases are carried along with their rows. -/
def map_to_state {N : ℕ} (gs : Matrix (Fin N × Bool) (Fin N × Bool) (ZMod 2))
    (ps : Fin N × Bool → ZMod 4) :
    (Bool × Fin N → PauliStr N) × (Bool × Fin N → ZMod 4) :=
  (fun bi => gs (bi.2, !bi.1), fun bi => ps (bi.2, !bi.1))

/-- Modelled from the spec (missing kernel `state_to_map`, spec section 4.3:
"a bijection (for r=0) between a Clifford map's matrix and a pure stabilizer
tableau — converting a map's rows into the canonical stabilizer/destabilizer
partition and back"): the inverse row permutation of `map_to_state`. -/
def state_to_map {N : ℕ} (rows : Bool × Fin N → PauliStr N)
    (phs : Bool × Fin N → ZMod 4) :
    Matrix (Fin N × Bool) (Fin N × Bool) (ZMod 2) × (Fin N × Bool → ZMod 4) :=
  (fun j => rows (!j.2, j.1), fun j => phs (!j.2, j.1))

/-- Source `CliffordMap.to_state` (src/stabilizer.py lines 41-45):
`gs, ps = map_to_state(self.gs, self.ps); return
StabilizerState(gs, ps).set_r(r)` (the constructor sets `r = 0`, then
`set_r` applies the optional argument). -/
def CliffordMap.to_state {N : ℕ} (M : CliffordMap N) (r : Option ℕ) :
    StabilizerState N :=
  (StabilizerState.mk (map_to_state M.gs M.ps).1 (map_to_state M.gs M.ps).2 0).set_r r

/-- Source `StabilizerState.to_map` (src/stabilizer.py lines 113-116):
`gs, ps = state_to_map(self.gs, self.ps); return CliffordMap(gs, ps)`. -/
def StabilizerState.to_map {N : ℕ} (S : StabilizerState N) : CliffordMap N :=
  ⟨(state_to_map S.rows S.phs).1, (state_to_map S.rows S.phs).2⟩

/-- Source `maximally_mixed_state` (src/stabilizer.py lines 210-211). -/
def maximally_mixed_state (N : ℕ) : StabilizerState N :=
  (identity_map N).to_state (some N)

/-- Source `zero_state` (src/stabilizer.py lines 213-214). -/
def zero_state (N : ℕ) : StabilizerState N :=
  (identity_map N).to_state none

/-- C2: converting the identity map to a state and back yields the identity
map — same binary matrix and same all-zero phase vector. -/
theorem C2_identity_roundtrip (N : ℕ) :
    ((identity_map N).to_state none).to_map = identity_map N ∧
      (((identity_map N).to_state none).to_map).gs = 1 ∧
      (((identity_map N).to_state none).to_map).ps = 0 := by
  have h : ((identity_map N).to_state none).to_map = identity_map N := by
    refine cliffordMap_eq_of_rows fun j => ?_
    unfold CliffordMap.row StabilizerState.to_map CliffordMap.to_state
      StabilizerState.set_r map_to_state state_to_map
    rcases j with ⟨i, b⟩
    cases b <;> rfl
  exact ⟨h, by rw [h]; rfl, by rw [h]; rfl⟩

/-- C10: `to_state` with no rank argument produces a pure state (`r = 0`);
in particular `zero_state` has `r = 0`, while `maximally_mixed_state` passes
`r = N` explicitly. -/
theorem C10_default_rank :
    (∀ (N : ℕ) (M : CliffordMap N), (M.to_state none).r = 0) ∧
    (∀ N : ℕ, (zero_state N).r = 0) ∧
    (∀ N : ℕ, (maximally_mixed_state N).r = N) :=
  ⟨fun _ _ => rfl, fun _ => rfl, fun _ => rfl⟩

/-! ## Stabilizer projection (group projection of new generators) -/

/-- Modelled from the spec (missing kernel `stabilizer_project`, spec
section 4.4): "incorporates a list of new commuting Pauli strings into the
tableau via partial Gaussian elimination against the existing active
stabilizer rows, producing an updated matrix and new `r`".  One generator
`g` is incorporated as follows, scanning rows in Python row order.

* If `g` anticommutes with some active stabilizer row `p` (rows `[r, N)`),
  the tableau is updated in the standard measurement/projection way: every
  other anticommuting row is multiplied by old row `p` (restoring
  commutation), row `p` becomes `g`, and old row `p` becomes its
  destabilizer; `r` is unchanged.
* Otherwise, if `g` anticommutes with some standby row (a standby
  stabilizer, rows `[0, r)`, scanned first, or a standby destabilizer,
  rows `[N, N+r)`), `g` is a new independent generator: the active set is
  extended.  Every other anticommuting row is multiplied by the pivot row
  `h`; the pair `(g, h)` becomes the new active stabilizer/destabilizer
  pair at slot `r-1`; the pair displaced from slot `r-1` moves to the
  pivot's slot; and `r` decreases by one.
* Otherwise `g` commutes with the whole tableau (it is already in the span
  of the active stabilizers) and nothing changes.

Phases are not touched: the source calls `stabilizer_project` on `gs`
only, and writes the phase slice separately. -/
def projectOne {N : ℕ} (S : StabilizerState N) (g : PauliStr N) :
    StabilizerState N :=
  match (List.finRange N).find? (fun j => decide (S.r ≤ j.val) &&
      decide (acq g (S.rows (false, j)) = 1)) with
  | some p =>
      let h := S.rows (false, p)
      { S with rows := fun idx =>
          if idx = (false, p) then g
          else if idx = (true, p) then h
          else if acq g (S.rows idx) = 1 then S.rows idx + h else S.rows idx }
  | none =>
      let standbys : List (Bool × Fin N) :=
        (((List.finRange N).filter fun j => decide (j.val < S.r)).map
          fun j => ((false, j) : Bool × Fin N)) ++
        (((List.finRange N).filter fun j => decide (j.val < S.r)).map
          fun j => ((true, j) : Bool × Fin N))
      match standbys.find? (fun q => decide (acq g (S.rows q) = 1)) with
      | some q =>
          if hr : S.r - 1 < N then
            let pivotSlot : Fin N := ⟨S.r - 1, hr⟩
            let h := S.rows q
            let elim : Bool × Fin N → PauliStr N := fun idx =>
              if acq g (S.rows idx) = 1 ∧ idx ≠ q then S.rows idx + h
              else S.rows idx
            { S with
              rows := fun idx =>
                if idx.2 = pivotSlot then (if idx.1 then h else g)
                else if idx.2 = q.2 then elim (idx.1, pivotSlot)
                else elim idx,
              r := S.r - 1 }
          else S
      | none => S

/-- Modelled from the spec (missing kernel `stabilizer_project`): fold the
single-generator update over the incoming generators in list order. -/
def stabilizer_project {N : ℕ} (S : StabilizerState N) (gens : List (PauliStr N)) :
    StabilizerState N :=
  gens.foldl projectOne S

/-- Whether all pairs of the given operators commute: the entry validity
check `(acq_mat(stabilizers.gs) == 0).all()` of the source
(`anticommutation_pairing` of spec section 4.1 being all-zero). -/
def allCommute {N : ℕ} (gens : List (PauliElem N)) : Prop :=
  ∀ P ∈ gens, ∀ Q ∈ gens, acq P.str Q.str = 0

instance instDecidableAllCommute {N : ℕ} (gens : List (PauliElem N)) :
    Decidable (allCommute gens) :=
  inferInstanceAs (Decidable (∀ P ∈ gens, ∀ Q ∈ gens, acq P.str Q.str = 0))

/-- The numpy broadcast condition for the phase-slice write
`state.ps[state.r:state.N] = ...` of `stabilizer_state` (src/stabilizer.py
line 207): assigning an array of length `L` into a slice of length `N - r`
(where `r` is the rank returned by projecting the generators onto the
maximally mixed state) succeeds exactly when `L` equals the slice length or
`L = 1` (a length-one array broadcasts across any slice); otherwise numpy
raises a broadcast `ValueError`.  For linearly dependent commuting
generator lists the projection leaves `N - r` smaller than the generator
count, so the write fails. -/
def phaseSliceFits {N : ℕ} (gens : List (PauliElem N)) : Prop :=
  gens.length =
      N - (stabilizer_project (maximally_mixed_state N) (gens.map PauliElem.str)).r ∨
    gens.length = 1

instance instDecidablePhaseSliceFits {N : ℕ} (gens : List (PauliElem N)) :
    Decidable (phaseSliceFits gens) :=
  inferInstanceAs (Decidable (_ ∨ _))

/-- Source `stabilizer_state` (src/stabilizer.py lines 196-208), the
primary constructor: reject non-commuting input (`ValueError` at entry),
project the generators (in order) onto the maximally mixed state, then
write the flipped phase list into the active stabilizer slice `ps[r:N]`.
That numpy slice assignment raises a broadcast `ValueError` unless the
generator count equals the slice length `N - r` or is `1`
(`phaseSliceFits`); either error leaves no state to observe, modelled as
`none`. -/
def stabilizer_state {N : ℕ} (gens : List (PauliElem N)) :
    Option (StabilizerState N) :=
  if allCommute gens then
    if phaseSliceFits gens then
      let st := stabilizer_project (maximally_mixed_state N) (gens.map PauliElem.str)
      let newphs : Bool × Fin N → ZMod 4 := fun idx =>
        if idx.1 = false ∧ st.r ≤ idx.2.val then
          ((gens.reverse.get? (idx.2.val - st.r)).map PauliElem.ph).getD (st.phs idx)
        else st.phs idx
      some { st with phs := newphs }
    else none
  else none

/-- The broadcast condition of the legacy phase-slice write
(build/lib/pyclifford/stabilizer.py line 271), with the rank coming from
the projection of the reversed generator rows. -/
def phaseSliceFitsLegacy {N : ℕ} (gens : List (PauliElem N)) : Prop :=
  gens.length =
      N - (stabilizer_project (maximally_mixed_state N)
        (gens.map PauliElem.str).reverse).r ∨
    gens.length = 1

instance instDecidablePhaseSliceFitsLegacy {N : ℕ} (gens : List (PauliElem N)) :
    Decidable (phaseSliceFitsLegacy gens) :=
  inferInstanceAs (Decidable (_ ∨ _))

/-- Source `stabilizer_state` of the legacy duplicate copy
(build/lib/pyclifford/stabilizer.py lines 260-272): same entry check, but
the generator rows are projected in reversed order (`numpy.flipud`) and the
phase list is written unflipped; the slice write raises the same broadcast
`ValueError` when the generator count fits neither the slice length nor the
length-one broadcast. -/
def stabilizer_state_legacy {N : ℕ} (gens : List (PauliElem N)) :
    Option (StabilizerState N) :=
  if allCommute gens then
    if phaseSliceFitsLegacy gens then
      let st := stabilizer_project (maximally_mixed_state N)
        (gens.map PauliElem.str).reverse
      let newphs : Bool × Fin N → ZMod 4 := fun idx =>
        if idx.1 = false ∧ st.r ≤ idx.2.val then
          ((gens.get? (idx.2.val - st.r)).map PauliElem.ph).getD (st.phs idx)
        else st.phs idx
      some { st with phs := newphs }
    else none
  else none

/-- The Pauli string `ZZ` on two qubits, twice: a pairwise-commuting but
linearly dependent generator list. -/
def gensDep : List (PauliElem 2) := [⟨0, fun k => if k.2 then 1 else 0⟩,
  ⟨0, fun k => if k.2 then 1 else 0⟩]

/-- C3 counterexample: on the commuting, linearly dependent list
`[+ZZ, +ZZ]` the constructor rejects the input (the projection leaves an
active slice of length 1 for 2 phases, so the phase-slice write
`ps[r:N] = flip(ps)` at src line 207 is a numpy broadcast `ValueError`)
although no pair of the supplied strings anticommutes — refuting the
claimed equivalence "error iff some pair anticommutes". -/
theorem C3_counterexample_dependent_commuting :
    stabilizer_state gensDep = none ∧
      ¬∃ P ∈ gensDep, ∃ Q ∈ gensDep, acq P.str Q.str = 1 :=
  ⟨by decide, by decide⟩

/-- C3 (amended): the constructor rejects its input (producing no state)
exactly when some pair of the supplied strings anticommutes — the entry
test that the pairwise anticommutation-pairing matrix is all zero, never
silently corrected — or when the all-commuting generator list fails the
phase-slice write: its length neither equals the projected active-slice
length `N - r` nor is `1`, the numpy broadcast error raised on linearly
dependent generator lists. -/
theorem C3_reject_characterization {N : ℕ} (gens : List (PauliElem N)) :
    stabilizer_state gens = none ↔
      (∃ P ∈ gens, ∃ Q ∈ gens, acq P.str Q.str = 1) ∨ ¬phaseSliceFits gens := by
  unfold stabilizer_state
  by_cases h : allCommute gens
  · rw [if_pos h]
    by_cases hf : phaseSliceFits gens
    · rw [if_pos hf]
      constructor
      · intro hc
        exact absurd hc (by simp)
      · rintro (⟨P, hP, Q, hQ, hPQ⟩ | hnf)
        · have hz := h P hP Q hQ
          rw [hz] at hPQ
          exact absurd hPQ (by decide)
        · exact absurd hf hnf
    · rw [if_neg hf]
      exact ⟨fun _ => Or.inr hf, fun _ => rfl⟩
  · rw [if_neg h]
    constructor
    · intro _
      unfold allCommute at h
      push_neg at h
      obtain ⟨P, hP, Q, hQ, hPQ⟩ := h
      exact Or.inl ⟨P, hP, Q, hQ, (zmod2_cases _).resolve_left hPQ⟩
    · intro _
      rfl

/-- The Pauli string `XX` on two qubits. -/
def xxStr : PauliStr 2 := fun k => if k.2 then 0 else 1

/-- The Pauli string `ZZ` on two qubits. -/
def zzStr : PauliStr 2 := fun k => if k.2 then 1 else 0

/-- The commuting generator list `{+XX, -ZZ}` (phases 0 and 2). -/
def gensBell : List (PauliElem 2) := [⟨0, xxStr⟩, ⟨2, zzStr⟩]

/-- C5: on the commuting generators `{+XX, -ZZ}` the primary constructor
(rows unreversed, phases flipped) and the legacy constructor (rows
reversed, phases unflipped) return states with different tableau matrices
and different phase vectors: the primary stores `(-ZZ, +XX)` in stabilizer
rows 0, 1 with destabilizers `(X1, Z0)`, the legacy stores `(+XX, -ZZ)`
with destabilizers `(Z1, X0)`. -/
theorem C5_primary_legacy_disagree :
    (stabilizer_state gensBell).map StabilizerState.rows ≠
        (stabilizer_state_legacy gensBell).map StabilizerState.rows ∧
      (stabilizer_state gensBell).map StabilizerState.phs ≠
        (stabilizer_state_legacy gensBell).map StabilizerState.phs := by
  refine ⟨by decide, by decide⟩

/-! ## C8: entanglement entropy and region argument normalization -/

/-- GF(2) rank of a list of vectors, computed greedily: a vector already in
the span of the accepted ones is skipped, otherwise it is accepted and the
span list doubles (spec section 4.1 `rank`: "binary rank via row reduction;
deterministic, total"). -/
def rankZ2 {N : ℕ} (vs : List (PauliStr N)) : ℕ :=
  (vs.foldl (fun acc v =>
    if v ∈ acc.2 then acc
    else (acc.1 + 1, acc.2 ++ acc.2.map fun w => w + v)) ((0, [0]) : ℕ × List (PauliStr N))).1

/-- Modelled from the spec (missing kernel `mask`): the boolean mask over
qubits with the listed indices set ("converted from an index list"). -/
def maskOf {N : ℕ} (l : List (Fin N)) : Fin N → Bool := fun i => decide (i ∈ l)

/-- The active stabilizer strings of a state: tableau rows `[r, N)`
(source property `stabilizers`, `self[self.r:self.N]`). -/
def StabilizerState.activeStabStrs {N : ℕ} (S : StabilizerState N) : List (PauliStr N) :=
  ((List.finRange N).filter fun j => decide (S.r ≤ j.val)).map fun j => S.rows (false, j)

/-- Modelled from the spec (missing kernel `stabilizer_entropy`, spec
section 4.4): "entanglement entropy of the reduced state on the selected
qubits, computed as (number of qubits in region) − rank(restriction of
active-stabilizer generators' matrix to that region's columns), in units of
one bit".  The restriction zeroes all columns (both the x and the z bit)
outside the region; the subtraction is truncated at zero. -/
def stabilizer_entropy {N : ℕ} (activeRows : List (PauliStr N)) (m : Fin N → Bool) : ℕ :=
  ((List.finRange N).filter fun i => m i).length -
    rankZ2 (activeRows.map fun g => fun k : Fin N × Bool => if m k.1 then g k else 0)

/-- A region argument to `entropy`: either a list of qubit indices or a
boolean mask over the qubits (the two runtime types the source accepts). -/
inductive RegionArg (N : ℕ) : Type
  | idxList (l : List (Fin N)) : RegionArg N
  | boolMask (m : Fin N → Bool) : RegionArg N

/-- Source `StabilizerState.entropy` of the legacy copy
(build/lib/pyclifford/stabilizer.py lines 173-182): a tuple/list argument
is turned into an array; an empty argument returns `0`; a non-boolean
(index) array is converted to the equivalent boolean mask; then the kernel
is called on the active stabilizers.  (A boolean mask has length `N`, so
its emptiness test is `N = 0`.) -/
def StabilizerState.entropy {N : ℕ} (S : StabilizerState N) (arg : RegionArg N) : ℕ :=
  match arg with
  | .idxList l =>
      if l.length = 0 then 0 else stabilizer_entropy S.activeStabStrs (maskOf l)
  | .boolMask m =>
      if N = 0 then 0 else stabilizer_entropy S.activeStabStrs m

/-- C8: the entropy operation accepts the region as an index list or as a
boolean mask, converts an index list to the equivalent mask, and both forms
of the same region give the same result. -/
theorem C8_entropy_mask_normalization {N : ℕ} (S : StabilizerState N)
    (l : List (Fin N)) :
    S.entropy (RegionArg.idxList l) = S.entropy (RegionArg.boolMask (maskOf l)) := by
  rcases l with _ | ⟨a, t⟩ <;> simp only [StabilizerState.entropy]
  · rw [if_pos (show ([] : List (Fin N)).length = 0 from rfl)]
    by_cases hN : N = 0
    · rw [if_pos hN]
    · rw [if_neg hN]
      unfold stabilizer_entropy
      have hfil : ((List.finRange N).filter fun i => maskOf [] i) = [] := by
        refine filter_eq_nil_of_none _ _ fun k _ => ?_
        unfold maskOf
        simp
      rw [hfil]
      simp
  · have hlen : (a :: t).length ≠ 0 := by simp
    have hN : N ≠ 0 := Nat.pos_iff_ne_zero.1 a.pos
    rw [if_neg hlen, if_neg hN]

/-! ## C9: embedding a smaller map -/

/-- The selected positions of a qubit mask, in Python row order: the mask
repeated twice per qubit (`numpy.repeat(mask, 2)`), so both the X and the Z
row of every masked qubit. -/
def selIdx {N : ℕ} (m : Fin N → Bool) : List (Fin N × Bool) :=
  rowOrderOf ((List.finRange N).filter fun i => m i)

/-- The row of a small map at a flat interleaved position `p`
(`2i + b`), or `none` when `p` is out of range. -/
def smallIdx (M : ℕ) (p : ℕ) : Option (Fin M × Bool) :=
  if h : p / 2 < M then some (⟨p / 2, h⟩, decide (p % 2 = 1)) else none

/-- Source `CliffordMap.embed` (src/stabilizer.py lines 47-52):
`mask2 = numpy.repeat(mask, 2); self.gs[numpy.ix_(mask2, mask2)] =
small_map.gs; self.ps[mask2] = small_map.ps`.  Numpy boolean indexing
enumerates the selected rows/columns in ascending position order, so the
`p`-th selected position receives row/column `p` of the small map.  The
caller must supply a mask selecting exactly `2M` positions (spec section
4.3); at any selected position beyond the small map's size the model keeps
the outer entry (the source would be a numpy shape error). -/
def CliffordMap.embed {N M : ℕ} (outer : CliffordMap N) (inner : CliffordMap M)
    (m : Fin N → Bool) : CliffordMap N :=
  let sel := selIdx m
  let gsNew : Matrix (Fin N × Bool) (Fin N × Bool) (ZMod 2) := fun j k =>
    if m j.1 ∧ m k.1 then
      match smallIdx M (sel.indexOf j), smallIdx M (sel.indexOf k) with
      | some a, some b => inner.gs a b
      | _, _ => outer.gs j k
    else outer.gs j k
  let psNew : Fin N × Bool → ZMod 4 := fun j =>
    if m j.1 then
      match smallIdx M (sel.indexOf j) with
      | some a => inner.ps a
      | none => outer.ps j
    else outer.ps j
  ⟨gsNew, psNew⟩

/-- C9: `embed` overwrites only the sub-block selected by the mask expanded
to both rows of each masked qubit: every matrix entry whose row or column
lies outside the expanded mask, and every phase entry outside it, is
unchanged. -/
theorem C9_embed_frame {N M : ℕ} (outer : CliffordMap N) (inner : CliffordMap M)
    (m : Fin N → Bool) (j k : Fin N × Bool) :
    (¬m j.1 = true ∨ ¬m k.1 = true →
      (outer.embed inner m).gs j k = outer.gs j k) ∧
    (¬m j.1 = true → (outer.embed inner m).ps j = outer.ps j) := by
  constructor
  · intro hjk
    show (if m j.1 ∧ m k.1 then _ else outer.gs j k) = outer.gs j k
    rw [if_neg]
    rintro ⟨h1, h2⟩
    rcases hjk with h | h
    · exact h h1
    · exact h h2
  · intro hj
    show (if m j.1 then _ else outer.ps j) = outer.ps j
    rw [if_neg hj]

/-- Witness for C9: embedding the one-qubit Hadamard-like map into the
two-qubit identity on qubit 0 leaves the entries of qubit 1 unchanged. -/
theorem C9_witness :
    ((identity_map 2).embed hadamardLike (fun i => decide (i.val = 0))).gs
        ((1 : Fin 2), false) ((1 : Fin 2), false) =
      (identity_map 2).gs ((1 : Fin 2), false) ((1 : Fin 2), false) ∧
    ((identity_map 2).embed hadamardLike (fun i => decide (i.val = 0))).ps
        ((1 : Fin 2), false) =
      (identity_map 2).ps ((1 : Fin 2), false) :=
  ⟨(C9_embed_frame (identity_map 2) hadamardLike (fun i => decide (i.val = 0))
      ((1 : Fin 2), false) ((1 : Fin 2), false)).1 (Or.inl (by decide)),
   (C9_embed_frame (identity_map 2) hadamardLike (fun i => decide (i.val = 0))
      ((1 : Fin 2), false) ((1 : Fin 2), false)).2 (by decide)⟩

/-! ## C6: expectation of a stabilizer-state observable -/

lemma length_filter_le_finRange (r : ℕ) :
    ∀ N : ℕ, ((List.finRange N).filter fun j => decide (r ≤ j.val)).length = N - r := by
  intro N
  induction N with
  | zero => simp
  | succ n ih =>
      rw [List.finRange_succ_last, List.filter_append, List.length_append,
        List.filter_map]
      have hcomp : (((List.finRange n).filter
          ((fun j : Fin (n + 1) => decide (r ≤ j.val)) ∘ Fin.castSucc)).map
            Fin.castSucc).length = n - r := by
        rw [List.length_map]
        exact ih
      rw [hcomp]
      rcases le_or_lt r n with h | h
      · have hsing : (([Fin.last n] : List (Fin (n + 1))).filter
            fun j => decide (r ≤ j.val)).length = 1 := by
          rw [List.filter_cons, if_pos (by simpa using h)]
          rfl
        rw [hsing]
        omega
      · have hsing : (([Fin.last n] : List (Fin (n + 1))).filter
            fun j => decide (r ≤ j.val)).length = 0 := by
          rw [List.filter_cons, if_neg (by simpa using Nat.not_le.2 h)]
          rfl
        rw [hsing]
        omega

/-- The active stabilizer rows of a state together with their phases
(source property `stabilizers`: tableau rows `[r, N)`). -/
def StabilizerState.activeStabElems {N : ℕ} (S : StabilizerState N) :
    List (PauliElem N) :=
  ((List.finRange N).filter fun j => decide (S.r ≤ j.val)).map
    fun j => ⟨S.phs (false, j), S.rows (false, j)⟩

lemma length_activeStabElems {N : ℕ} (S : StabilizerState N) :
    S.activeStabElems.length = N - S.r := by
  unfold StabilizerState.activeStabElems
  rw [List.length_map]
  exact length_filter_le_finRange S.r N

/-- All products of subsets of the given generators, each product taken in
generator-list order (spec section 4.4 `enumerate_group`: "exhaustively
lists all `2^(N-r)` elements of the stabilizer group by combining every
binary coefficient vector"). -/
def groupElems {N : ℕ} (gens : List (PauliElem N)) : List (PauliElem N) :=
  gens.foldr (fun g acc => acc ++ acc.map fun e => g * e) [1]

/-- The real part of `i^p`, as an integer. -/
def iRe (p : ZMod 4) : ℤ := if p = 0 then 1 else if p = 2 then -1 else 0

/-- The matching-string overlap sum of two operator lists:
`Σ_{a, b, a.str = b.str} Re(i^(a.ph + b.ph))`.  By trace orthogonality of
Pauli strings, `Tr(a·b) = 2^N · Re(i^(pa+pb)) · [a.str = b.str]` for the
Hermitian encoded operators. -/
def overlapSum {N : ℕ} (G1 G2 : List (PauliElem N)) : ℤ :=
  (G1.map fun a => (G2.map fun b =>
    if a.str = b.str then iRe (a.ph + b.ph) else 0).sum).sum

/-- Modelled from the spec (missing kernel `stabilizer_projection_trace`,
spec section 4.4: the Hilbert-Schmidt overlap "computed via a
projection-trace subroutine"): the trace of the subject density matrix
against the projector `Π = Π_a (1 + O_a)/2` of the observable's active
stabilizers, `Tr(ρ Π) = 2^(-L) Σ_match`, where `L` is the number of
observable generators and the sum runs over the subject's group and the
projector's group expansion. -/
def stabilizer_projection_trace {N : ℕ} (subj obsActive : List (PauliElem N)) : ℚ :=
  (overlapSum (groupElems subj) (groupElems obsActive) : ℚ) / 2 ^ obsActive.length

/-- The Hilbert-Schmidt overlap trace `Tr(ρ σ)` of two stabilizer density
matrices, via the exponential Pauli expansion of both (spec section 4.4
`to_density_matrix`: `ρ = 2^(-N) Σ_g (group expansion)`, and trace
orthogonality): `Tr(ρ σ) = 2^(-N) Σ_match`. -/
def hsTrace {N : ℕ} (S O : StabilizerState N) : ℚ :=
  (overlapSum (groupElems S.activeStabElems) (groupElems O.activeStabElems) : ℚ) / 2 ^ N

/-- Source `StabilizerState.expect` of the legacy copy
(build/lib/pyclifford/stabilizer.py lines 153-159), branch for a
`StabilizerState` observable: if the subject is mixed (`self.r != 0`) raise
`NotImplementedError("Will be added in the next release!")`; otherwise
return `stabilizer_projection_trace(self.gs, self.ps, obs.gs[obs.r:obs.N],
obs.ps[obs.r:obs.N], 0) / 2**obs.r`. -/
def StabilizerState.expectState {N : ℕ} (S obs : StabilizerState N) :
    Except String ℚ :=
  if S.r ≠ 0 then Except.error "Will be added in the next release!"
  else Except.ok
    (stabilizer_projection_trace S.activeStabElems obs.activeStabElems / 2 ^ obs.r)

/-- C6: with a full stabilizer state as the observable, `expect` raises the
explicit not-implemented error when the subject tableau is mixed
(`r ≠ 0`), and returns the Hilbert-Schmidt overlap trace of the two
density matrices when the subject is pure (`r = 0`). -/
theorem C6_expect_state_observable {N : ℕ} (S obs : StabilizerState N)
    (hobs : obs.r ≤ N) :
    (S.r ≠ 0 →
      S.expectState obs = Except.error "Will be added in the next release!") ∧
    (S.r = 0 → S.expectState obs = Except.ok (hsTrace S obs)) := by
  constructor
  · intro hmix
    unfold StabilizerState.expectState
    rw [if_pos hmix]
  · intro hpure
    unfold StabilizerState.expectState
    rw [if_neg (by rw [hpure]; exact fun hc => hc rfl)]
    unfold stabilizer_projection_trace hsTrace
    have hlen : obs.activeStabElems.length = N - obs.r := length_activeStabElems obs
    rw [hlen]
    rw [div_div, ← pow_add]
    have harith : N - obs.r + obs.r = N := Nat.sub_add_cancel hobs
    rw [harith]

/-- Witness for C6: the one-qubit maximally mixed subject errors out, and
the pure zero state against itself returns overlap `1`
(`Tr(|0⟩⟨0| · |0⟩⟨0|) = 1`). -/
theorem C6_witness :
    ((maximally_mixed_state 1).r ≠ 0 ∧
      (maximally_mixed_state 1).expectState (zero_state 1) =
        Except.error "Will be added in the next release!") ∧
    ((zero_state 1).r = 0 ∧ (1 : ℕ) ≤ 1 ∧
      (zero_state 1).expectState (zero_state 1) =
        Except.ok (hsTrace (zero_state 1) (zero_state 1)) ∧
      hsTrace (zero_state 1) (zero_state 1) = 1) :=
  ⟨⟨by decide,
    (C6_expect_state_observable (maximally_mixed_state 1) (zero_state 1)
      (by decide)).1 (by decide)⟩,
   ⟨rfl, le_refl 1,
    (C6_expect_state_observable (zero_state 1) (zero_state 1) (by decide)).2 rfl,
    by
      unfold hsTrace
      rw [show overlapSum (groupElems (zero_state 1).activeStabElems)
        (groupElems (zero_state 1).activeStabElems) = 2 from by decide]
      norm_num⟩⟩

/-! ## C7: copies are deep and independent

The aliasing content of C7 needs an explicit object model: numpy arrays
live in a store addressed by naturals, Python objects hold references
(addresses), mutation is a store write at an address, and two objects alias
exactly when they hold the same address.  `self.gs.copy()` allocates a
fresh array with the same contents. -/

/-- A store of allocated arrays (matrices and phase vectors) with a bump
allocator. -/
structure Store (N : ℕ) where
  next : ℕ
  mats : ℕ → Bool × Fin N → PauliStr N
  vecs : ℕ → Bool × Fin N → ZMod 4

/-- A `StabilizerState` object: references to its `gs` matrix and `ps`
phase vector, plus the value-typed rank marker `r`. -/
structure StateRef where
  gsAddr : ℕ
  psAddr : ℕ
  r : ℕ

/-- Well-formedness: the object's arrays are allocated. -/
def StateRef.wf {N : ℕ} (σ : Store N) (s : StateRef) : Prop :=
  s.gsAddr < σ.next ∧ s.psAddr < σ.next

instance instDecidableWf {N : ℕ} (σ : Store N) (s : StateRef) :
    Decidable (s.wf σ) :=
  inferInstanceAs (Decidable (s.gsAddr < σ.next ∧ s.psAddr < σ.next))

def readGs {N : ℕ} (σ : Store N) (s : StateRef) : Bool × Fin N → PauliStr N :=
  σ.mats s.gsAddr

def readPs {N : ℕ} (σ : Store N) (s : StateRef) : Bool × Fin N → ZMod 4 :=
  σ.vecs s.psAddr

/-- In-place mutation of the matrix array at address `a`. -/
def writeMat {N : ℕ} (σ : Store N) (a : ℕ) (v : Bool × Fin N → PauliStr N) :
    Store N :=
  { σ with mats := fun b => if b = a then v else σ.mats b }

/-- In-place mutation of the phase array at address `a`. -/
def writeVec {N : ℕ} (σ : Store N) (a : ℕ) (v : Bool × Fin N → ZMod 4) :
    Store N :=
  { σ with vecs := fun b => if b = a then v else σ.vecs b }

/-- Source `StabilizerState.copy` (src/stabilizer.py lines 105-106):
`StabilizerState(self.gs.copy(), self.ps.copy()).set_r(self.r)` — two fresh
arrays are allocated, their contents copied from the source object's
arrays, and the new object carries the same rank marker. -/
def copyState {N : ℕ} (σ : Store N) (s : StateRef) : Store N × StateRef :=
  ({ next := σ.next + 2,
     mats := fun a => if a = σ.next then σ.mats s.gsAddr else σ.mats a,
     vecs := fun a => if a = σ.next + 1 then σ.vecs s.psAddr else σ.vecs a },
   { gsAddr := σ.next, psAddr := σ.next + 1, r := s.r })

/-- C7: `copy` returns a new state with equal binary matrix, phase vector
and rank marker, stored at fresh (non-aliased) addresses, so that mutating
either object's arrays never changes the other's. -/
theorem C7_copy_deep_independent {N : ℕ} (σ : Store N) (s : StateRef)
    (hwf : s.wf σ) :
    (readGs (copyState σ s).1 (copyState σ s).2 = readGs σ s) ∧
    (readPs (copyState σ s).1 (copyState σ s).2 = readPs σ s) ∧
    ((copyState σ s).2.r = s.r) ∧
    ((copyState σ s).2.gsAddr ≠ s.gsAddr) ∧
    ((copyState σ s).2.psAddr ≠ s.psAddr) ∧
    (∀ v, readGs (writeMat (copyState σ s).1 (copyState σ s).2.gsAddr v) s =
        readGs (copyState σ s).1 s) ∧
    (∀ v, readGs (writeMat (copyState σ s).1 s.gsAddr v) (copyState σ s).2 =
        readGs (copyState σ s).1 (copyState σ s).2) ∧
    (∀ v, readPs (writeVec (copyState σ s).1 (copyState σ s).2.psAddr v) s =
        readPs (copyState σ s).1 s) ∧
    (∀ v, readPs (writeVec (copyState σ s).1 s.psAddr v) (copyState σ s).2 =
        readPs (copyState σ s).1 (copyState σ s).2) := by
  obtain ⟨hg, hp⟩ := hwf
  have hgne : s.gsAddr ≠ σ.next := Nat.ne_of_lt hg
  have hpne : s.psAddr ≠ σ.next + 1 := Nat.ne_of_lt (Nat.lt_succ_of_lt hp)
  refine ⟨?_, ?_, rfl, ?_, ?_, ?_, ?_, ?_, ?_⟩
  · show (if σ.next = σ.next then σ.mats s.gsAddr else σ.mats σ.next) = _
    rw [if_pos rfl]
    rfl
  · show (if σ.next + 1 = σ.next + 1 then σ.vecs s.psAddr else σ.vecs (σ.next + 1)) = _
    rw [if_pos rfl]
    rfl
  · exact fun hc => hgne hc.symm
  · exact fun hc => hpne hc.symm
  · intro v
    show (if s.gsAddr = σ.next then v else
      (if s.gsAddr = σ.next then σ.mats s.gsAddr else σ.mats s.gsAddr)) = _
    rw [if_neg hgne, if_neg hgne]
    show σ.mats s.gsAddr = (if s.gsAddr = σ.next then σ.mats s.gsAddr else σ.mats s.gsAddr)
    rw [if_neg hgne]
  · intro v
    show (if σ.next = s.gsAddr then v else
      (if σ.next = σ.next then σ.mats s.gsAddr else σ.mats σ.next)) = _
    rw [if_neg fun hc => hgne hc.symm, if_pos rfl]
    show σ.mats s.gsAddr = (if σ.next = σ.next then σ.mats s.gsAddr else σ.mats σ.next)
    rw [if_pos rfl]
  · intro v
    show (if s.psAddr = σ.next + 1 then v else
      (if s.psAddr = σ.next + 1 then σ.vecs s.psAddr else σ.vecs s.psAddr)) = _
    rw [if_neg hpne, if_neg hpne]
    show σ.vecs s.psAddr = (if s.psAddr = σ.next + 1 then σ.vecs s.psAddr else σ.vecs s.psAddr)
    rw [if_neg hpne]
  · intro v
    show (if σ.next + 1 = s.psAddr then v else
      (if σ.next + 1 = σ.next + 1 then σ.vecs s.psAddr else σ.vecs (σ.next + 1))) = _
    rw [if_neg fun hc => hpne hc.symm, if_pos rfl]
    show σ.vecs s.psAddr =
      (if σ.next + 1 = σ.next + 1 then σ.vecs s.psAddr else σ.vecs (σ.next + 1))
    rw [if_pos rfl]

/-- A concrete two-object store for the C7 witness. -/
def storeW : Store 1 :=
  ⟨2, fun _ => fun _ => fun _ => 0, fun _ => fun _ => 0⟩

/-- A concrete state object in `storeW`. -/
def stateW : StateRef := ⟨0, 1, 0⟩

/-- Witness for C7 at a concrete store and object: the copy has equal
contents and rank, fresh addresses, and a write to the copy's matrix does
not change the original. -/
theorem C7_witness :
    (readGs (copyState storeW stateW).1 (copyState storeW stateW).2 =
      readGs storeW stateW) ∧
    ((copyState storeW stateW).2.gsAddr ≠ stateW.gsAddr) ∧
    (readGs (writeMat (copyState storeW stateW).1
        (copyState storeW stateW).2.gsAddr (fun _ => fun _ => 1)) stateW =
      readGs (copyState storeW stateW).1 stateW) := by
  have h := C7_copy_deep_independent storeW stateW (by decide)
  exact ⟨h.1, h.2.2.2.1, h.2.2.2.2.2.1 (fun _ => fun _ => 1)⟩
